import Mathlib

/-!
# Verification model of `src/h_advanced_traits.rs`

The source is a Rust module with three energy units (`Joule`, `Calorie`, and the
common unit `BTU = u32`), fuel types with fixed energy densities, energy
providers, and fuel blends.  The arithmetic in the source mixes `u32` integer
arithmetic (modelled as natural numbers reduced modulo `2 ^ 32` where overflow
can occur) with `f32` floating point arithmetic.

The `f32` arithmetic is modelled exactly: binary32 values are represented by
the rational number they denote, and every primitive operation (`as f32` casts,
`/`, `*`, `+`, `-`) rounds its exact rational result to 24 significant bits
with round-to-nearest, ties-to-even, which is IEEE-754 binary32 semantics in
the default rounding mode.  All quantities appearing in this module are
nonnegative normal values far below the overflow threshold of binary32, so
neither subnormals, infinities, nor NaN can arise; the rounding function below
is exact on the range `[2 ^ (-30), 2 ^ 100]` that covers every intermediate
value of the program.
-/

/-- A binary32 value, represented exactly as the rational `m / 2 ^ k`.  The
representation is not unique; every function below depends only on the value.
All internal arithmetic is on `ℤ` and `ℕ` so that the whole pipeline reduces
definitionally. -/
structure F32 where
  m : ℤ
  k : ℕ
deriving DecidableEq

/-- The rational value denoted by a binary32 datum. -/
def F32.val (x : F32) : ℚ := (x.m : ℚ) / 2 ^ x.k

/-- Round `a / b` to the nearest integer, ties to even (for `b ≠ 0`). -/
def rheNat (a b : ℕ) : ℕ :=
  let q := a / b
  let r := a % b
  if 2 * r < b then q
  else if b < 2 * r then q + 1
  else if q % 2 = 0 then q else q + 1

/-- `⌊log₂ n⌋` by structural recursion on a fuel argument (so that it reduces
definitionally); exact whenever `1 ≤ n < 2 ^ fuel`. -/
def lg2 : ℕ → ℕ → ℕ
  | 0, _ => 0
  | fuel + 1, n => if n ≤ 1 then 0 else lg2 fuel (n / 2) + 1

/-- `⌊log₂ (a / b)⌋`, computed through the integer part of `a * 2 ^ 30 / b`;
correct whenever `2 ^ (-30) ≤ a / b ≤ 2 ^ 260`. -/
def eRaw (a b : ℕ) : ℤ := (lg2 300 (a * 2 ^ 30 / b) : ℤ) - 30

/-- The binary32 value nearest to the nonnegative rational `a / b` (24-bit
significand, round to nearest, ties to even).  With `e = ⌊log₂ (a/b)⌋`, the
scaled significand `(a/b) * 2 ^ (23 - e)` lies in `[2^23, 2^24)` and is
rounded to an integer, ties to even. -/
def roundPos (a b : ℕ) : F32 :=
  if eRaw a b ≤ 23 then
    ⟨(rheNat (a * 2 ^ (23 - eRaw a b).toNat) b : ℕ), (23 - eRaw a b).toNat⟩
  else
    ⟨(rheNat a (b * 2 ^ (eRaw a b - 23).toNat) * 2 ^ (eRaw a b - 23).toNat : ℕ), 0⟩

/-- The binary32 value nearest to `a / b` (signs handled symmetrically). -/
def roundF32 (a : ℤ) (b : ℕ) : F32 :=
  if a < 0 then
    let r := roundPos (-a).toNat b
    ⟨-r.m, r.k⟩
  else roundPos a.toNat b

/-- An `f32` literal such as `1.0` or `100.0` (exactly representable). -/
def f32lit (n : ℕ) : F32 := ⟨n, 0⟩

/-- `n as f32` (Rust cast of an unsigned integer to binary32). -/
def f32ofNat (n : ℕ) : F32 := roundF32 n 1

/-- binary32 multiplication: the exact product, correctly rounded. -/
def f32mul (x y : F32) : F32 := roundF32 (x.m * y.m) (2 ^ (x.k + y.k))

/-- binary32 addition: the exact sum, correctly rounded. -/
def f32add (x y : F32) : F32 := roundF32 (x.m * 2 ^ y.k + y.m * 2 ^ x.k) (2 ^ (x.k + y.k))

/-- binary32 subtraction: the exact difference, correctly rounded. -/
def f32sub (x y : F32) : F32 := roundF32 (x.m * 2 ^ y.k - y.m * 2 ^ x.k) (2 ^ (x.k + y.k))

/-- binary32 division: the exact quotient, correctly rounded (the divisors in
this module are the positive literal `100.0` and never zero). -/
def f32div (x y : F32) : F32 :=
  if 0 ≤ y.m then roundF32 (x.m * 2 ^ y.k) (y.m.toNat * 2 ^ x.k)
  else roundF32 (-(x.m * 2 ^ y.k)) ((-y.m).toNat * 2 ^ x.k)

/-- Rust `f32::round`: round to the nearest integer, ties away from zero.
The result of rounding a binary32 value is always exactly representable. -/
def f32round (x : F32) : F32 :=
  if x.m < 0 then ⟨-((2 * (-x.m).toNat + 2 ^ x.k) / 2 ^ (x.k + 1) : ℕ), 0⟩
  else ⟨((2 * x.m.toNat + 2 ^ x.k) / 2 ^ (x.k + 1) : ℕ), 0⟩

/-- Rust `as u32` on a binary32 value: truncate toward zero, saturating at the
bounds of `u32`. -/
def f32toU32 (x : F32) : ℕ :=
  if x.m < 0 then 0 else min (x.m.toNat / 2 ^ x.k) (2 ^ 32 - 1)

/-! ## Unit conversions (`impl From` blocks, lines 18-40)

`u32` multiplication wraps modulo `2 ^ 32`; division truncates. -/

/-- `impl From<Joule> for BTU`: `j.0 / 1055`. -/
def btuOfJoule (j : ℕ) : ℕ := j / 1055

/-- `impl From<BTU> for Joule`: `b * 1055` in `u32` arithmetic. -/
def jouleOfBtu (b : ℕ) : ℕ := b * 1055 % 2 ^ 32

/-- `impl From<Calorie> for BTU`: `c.0 / 251`. -/
def btuOfCalorie (c : ℕ) : ℕ := c / 251

/-- `impl From<BTU> for Calorie`: `b * 251` in `u32` arithmetic. -/
def calorieOfBtu (b : ℕ) : ℕ := b * 251 % 2 ^ 32

/-- The three energy units of the module. -/
inductive EUnit
  | joule
  | calorie
  | btu
deriving DecidableEq

/-- `.into()` toward the common unit, per unit (identity on `BTU`). -/
def intoBTU : EUnit → ℕ → ℕ
  | .joule, v => btuOfJoule v
  | .calorie, v => btuOfCalorie v
  | .btu, v => v

/-- `Output::from` away from the common unit, per unit (identity on `BTU`). -/
def fromBTU : EUnit → ℕ → ℕ
  | .joule, b => jouleOfBtu b
  | .calorie, b => calorieOfBtu b
  | .btu, b => b

/-- The multiplier applied by `fromBTU` before `u32` wrap-around. -/
def unitScale : EUnit → ℕ
  | .joule => 1055
  | .calorie => 251
  | .btu => 1

/-! ## Fuel types

The closure of the module's `Fuel` implementations: the three base fuels plus
the two blend constructors `Mixed<F1, F2>` and `CustomMixed<C, F1, F2>`. -/

/-- A type implementing `Fuel` in the module. -/
inductive FuelTy
  | diesel
  | lithiumBattery
  | uranium
  | mixed (F1 F2 : FuelTy)
  | customMixed (C : ℕ) (F1 F2 : FuelTy)
deriving DecidableEq

/-- The associated `Output` unit of each fuel. -/
def outputUnit : FuelTy → EUnit
  | .diesel => .joule
  | .lithiumBattery => .calorie
  | .uranium => .joule
  | .mixed _ _ => .btu
  | .customMixed _ _ _ => .btu

/-- `CustomMixed::energy_density` body after the assertion (lines 237-243):
`(d1 as f32 * (C as f32 / 100.0) + d2 as f32 * (1.0 - C as f32 / 100.0)) as u32`. -/
def f32blendDensity (C d1 d2 : ℕ) : ℕ :=
  let ratio := f32div (f32ofNat C) (f32lit 100)
  let inverse_ratio := f32sub (f32lit 1) ratio
  let e1 := f32mul (f32ofNat d1) ratio
  let e2 := f32mul (f32ofNat d2) inverse_ratio
  f32toU32 (f32add e1 e2)

/-- `F::energy_density()`, as the inner numeral of the fuel's native unit.
`none` models a panic: `CustomMixed` asserts `C <= 100` before anything else,
and a blend panics if computing a constituent's density panics. -/
def energy_density : FuelTy → Option ℕ
  | .diesel => some (jouleOfBtu 100)
  | .lithiumBattery => some (calorieOfBtu 200)
  | .uranium => some (jouleOfBtu 1000)
  | .mixed F1 F2 =>
    match energy_density F1, energy_density F2 with
    | some v1, some v2 =>
      some ((intoBTU (outputUnit F1) v1 + intoBTU (outputUnit F2) v2) % 2 ^ 32 / 2)
    | _, _ => none
  | .customMixed C F1 F2 =>
    if C ≤ 100 then
      match energy_density F1, energy_density F2 with
      | some v1, some v2 =>
        some (f32blendDensity C (intoBTU (outputUnit F1) v1) (intoBTU (outputUnit F2) v2))
      | _, _ => none
    else none

/-- A fuel's energy density expressed in the common unit `BTU`. -/
def densityBTU (F : FuelTy) : Option ℕ :=
  (energy_density F).map (intoBTU (outputUnit F))

/-- The three base fuels (the `Fuel` impls that are not blend constructors). -/
def isBase : FuelTy → Prop
  | .diesel => True
  | .lithiumBattery => True
  | .uranium => True
  | _ => False

instance : DecidablePred isBase := fun F => by
  cases F <;> simp [isBase] <;> infer_instance

/-! ## `ProvideEnergy` (lines 101-137) -/

/-- The provided method `provide_energy_with_efficiency` (lines 121-129):
clamp `e` at 100, take the density in `BTU`, multiply by the amount in `u32`,
scale by `e/100` in `f32` with `f32::round`, cast back to `u32`, and convert
into the fuel's native unit.  `none` models a panicking density computation. -/
def provide_energy_with_efficiency (F : FuelTy) (amount e : ℕ) : Option ℕ :=
  match energy_density F with
  | none => none
  | some dn =>
    let efficiency := f32div (f32ofNat (min e 100)) (f32lit 100)
    let total := intoBTU (outputUnit F) dn * amount % 2 ^ 32
    let adjusted := f32toU32 (f32round (f32mul (f32ofNat total) efficiency))
    some (fromBTU (outputUnit F) adjusted)

/-- `provide_energy_ideal` (lines 134-136). -/
def provide_energy_ideal (F : FuelTy) (amount : ℕ) : Option ℕ :=
  provide_energy_with_efficiency F amount 100

/-! ## `InternalCombustion<DECAY>` (lines 154-184) -/

/-- The two `RefCell` fields of `InternalCombustion`. -/
structure ICState where
  eff : ℕ
  count : ℕ
deriving DecidableEq

/-- `InternalCombustion::new` (lines 160-165): clamp the initial efficiency. -/
def icNew (efficiency : ℕ) : ICState := ⟨min efficiency 100, 0⟩

/-- The state transition inside `provide_energy` (lines 171-180): decrement the
efficiency when `count % DECAY == 0 && eff > 1 && count >= DECAY`, then
increment the call counter (`u32` arithmetic).  Returns the efficiency applied
to this call together with the new state.  (For `DECAY = 0` the source panics
on `count % DECAY`; the theorems below assume `0 < DECAY`.) -/
def icStep (D : ℕ) (s : ICState) : ℕ × ICState :=
  let e := if s.count % D = 0 ∧ 1 < s.eff ∧ D ≤ s.count then s.eff - 1 else s.eff
  (e, ⟨e, (s.count + 1) % 2 ^ 32⟩)

/-- The engine state after `n` calls starting from `InternalCombustion::new E`. -/
def icRun (D E : ℕ) : ℕ → ICState
  | 0 => icNew E
  | n + 1 => (icStep D (icRun D E n)).2

/-- The efficiency applied on call `n` (0-indexed). -/
def icApplied (D E n : ℕ) : ℕ := (icRun D E (n + 1)).eff

/-- `InternalCombustion::provide_energy` (lines 169-183) on one `Diesel`
container: run the decay step, then produce energy at the stored efficiency. -/
def icProvideEnergy (D : ℕ) (s : ICState) (amount : ℕ) : Option ℕ × ICState :=
  (provide_energy_with_efficiency .diesel amount (icStep D s).1, (icStep D s).2)

/-- The native-unit output of the `n`-th call (0-indexed) when every call is
fed a fresh `FuelContainer::<Diesel>::new amount`. -/
def icOutput (D E amount n : ℕ) : Option ℕ :=
  (icProvideEnergy D (icRun D E n) amount).1

/-! ## Spec-side comparators

These definitions transcribe the specification's arithmetic (exact rational
rounding), to be compared with the code model above. -/

/-- Round `a / b` to the nearest natural number, halves away from zero. -/
def rnat (a b : ℕ) : ℕ := (2 * a + b) / (2 * b)

/-- The specification's formula for `provide_energy_with_efficiency`: clamp the
efficiency, form the total common-unit energy `density * amount`, scale by
`e / 100` with round-to-nearest, and convert back to the native unit. -/
def specEnergyWithEfficiency (F : FuelTy) (amount e : ℕ) : Option ℕ :=
  (densityBTU F).map fun d => fromBTU (outputUnit F) (rnat (d * amount * min e 100) 100)

/-- The specification's formula for the weighted blend's density:
`round(d1 * C/100 + d2 * (100-C)/100)` with round-to-nearest. -/
def specCustomMixedDensity (C : ℕ) (F1 F2 : FuelTy) : Option ℕ :=
  if C ≤ 100 then
    (densityBTU F1).bind fun d1 =>
      (densityBTU F2).map fun d2 => rnat (d1 * C + d2 * (100 - C)) 100
  else none

/-! ## Ground lemmas about the binary32 model -/

theorem lg2_spec : ∀ fuel n : ℕ, 1 ≤ n → n < 2 ^ fuel →
    2 ^ lg2 fuel n ≤ n ∧ n < 2 ^ (lg2 fuel n + 1) := by
  intro fuel
  induction fuel with
  | zero => intro n h1 h2; omega
  | succ f ih =>
    intro n h1 h2
    by_cases hn : n ≤ 1
    · have hone : n = 1 := by omega
      subst hone
      simp [lg2]
    · have hpow : 2 ^ (f + 1) = 2 ^ f * 2 := by ring
      have h2' : n / 2 < 2 ^ f := by omega
      have h1' : 1 ≤ n / 2 := by omega
      obtain ⟨ha, hb⟩ := ih (n / 2) h1' h2'
      have hstep : lg2 (f + 1) n = lg2 f (n / 2) + 1 := by
        simp [lg2, hn]
      rw [hstep]
      have e1 : 2 ^ (lg2 f (n / 2) + 1) = 2 ^ lg2 f (n / 2) * 2 := by ring
      have e2 : 2 ^ (lg2 f (n / 2) + 1 + 1) = 2 ^ (lg2 f (n / 2) + 1) * 2 := by ring
      omega

theorem rheNat_abs_le (a b : ℕ) (hb : 0 < b) :
    |(rheNat a b : ℚ) - (a : ℚ) / b| ≤ 1 / 2 := by
  have hbq : (0 : ℚ) < b := by exact_mod_cast hb
  have hmod := Nat.div_add_mod a b
  have hmlt := Nat.mod_lt a hb
  have hnat0 : (a / b * b + a % b : ℕ) = a := by
    rw [Nat.mul_comm]
    exact hmod
  have hnat : ((a / b : ℕ) : ℚ) * b + ((a % b : ℕ) : ℚ) = a :=
    calc ((a / b : ℕ) : ℚ) * b + ((a % b : ℕ) : ℚ)
        = ((a / b * b + a % b : ℕ) : ℚ) := by push_cast; ring
      _ = a := by rw [hnat0]
  have hval : (a : ℚ) / b = ((a / b : ℕ) : ℚ) + ((a % b : ℕ) : ℚ) / b := by
    field_simp
    linarith [hnat]
  unfold rheNat
  by_cases h1 : 2 * (a % b) < b
  · have h1q : 2 * ((a % b : ℕ) : ℚ) < b := by exact_mod_cast h1
    rw [if_pos h1, hval, abs_le]
    have h0 : (0 : ℚ) ≤ ((a % b : ℕ) : ℚ) / b := by positivity
    have hlt : ((a % b : ℕ) : ℚ) / b < 1 / 2 := by
      rw [div_lt_div_iff₀ hbq (by norm_num : (0 : ℚ) < 2)]
      linarith
    constructor <;> linarith
  · rw [if_neg h1]
    have h1q : (b : ℚ) ≤ 2 * ((a % b : ℕ) : ℚ) := by exact_mod_cast Nat.le_of_not_lt h1
    have hge : 1 / 2 ≤ ((a % b : ℕ) : ℚ) / b := by
      rw [div_le_div_iff₀ (by norm_num : (0 : ℚ) < 2) hbq]
      linarith
    have hlt1 : ((a % b : ℕ) : ℚ) / b < 1 := by
      rw [div_lt_one hbq]
      exact_mod_cast hmlt
    by_cases h2 : b < 2 * (a % b)
    · rw [if_pos h2, hval, abs_le]
      push_cast
      constructor <;> linarith
    · have hb2 : b = 2 * (a % b) := by omega
      have hr0 : ((a % b : ℕ) : ℚ) ≠ 0 :=
        Nat.cast_ne_zero.mpr (show a % b ≠ 0 by omega)
      have hcast : (b : ℚ) = 2 * ((a % b : ℕ) : ℚ) := by exact_mod_cast hb2
      have hhalf : ((a % b : ℕ) : ℚ) / b = 1 / 2 := by
        rw [hcast]
        field_simp
        ring
      rw [if_neg h2]
      by_cases h3 : a / b % 2 = 0
      · rw [if_pos h3, hval, hhalf, abs_le]
        constructor <;> linarith
      · rw [if_neg h3, hval, hhalf, abs_le]
        push_cast
        constructor <;> linarith

theorem rheNat_exact (a b : ℕ) (hdvd : b ∣ a) : rheNat a b = a / b := by
  rcases Nat.eq_zero_or_pos b with hb | hb
  · subst hb
    have : a = 0 := by simpa using hdvd
    subst this
    simp [rheNat]
  · obtain ⟨c, rfl⟩ := hdvd
    have hmod : b * c % b = 0 := Nat.mul_mod_right b c
    simp [rheNat, hmod, hb]

theorem eRaw_bounds (a b : ℕ) (hb : 0 < b)
    (h1 : (2 : ℚ) ^ (-30 : ℤ) ≤ (a : ℚ) / b) (h2 : (a : ℚ) / b ≤ (2 : ℚ) ^ (200 : ℤ)) :
    (2 : ℚ) ^ eRaw a b ≤ (a : ℚ) / b ∧ (a : ℚ) / b < (2 : ℚ) ^ (eRaw a b + 1) := by
  have hbq : (0 : ℚ) < b := by exact_mod_cast hb
  have h30 : ((2 : ℚ) ^ (30 : ℕ)) = (2 : ℚ) ^ (30 : ℤ) := (zpow_natCast 2 30).symm
  -- the scaled value `a * 2^30 / b` is at least 1
  have hge1 : (1 : ℚ) ≤ (a : ℚ) * 2 ^ (30 : ℕ) / b := by
    have := mul_le_mul_of_nonneg_right h1 (le_of_lt (by positivity : (0:ℚ) < 2 ^ (30 : ℕ)))
    calc (1 : ℚ) = (2 : ℚ) ^ (-30 : ℤ) * 2 ^ (30 : ℕ) := by
          rw [h30, ← zpow_add₀ (by norm_num : (2:ℚ) ≠ 0)]
          norm_num
    _ ≤ (a : ℚ) / b * 2 ^ (30 : ℕ) := this
    _ = (a : ℚ) * 2 ^ (30 : ℕ) / b := by ring
  have hble : b ≤ a * 2 ^ 30 := by
    have hq : (b : ℚ) ≤ (a : ℚ) * 2 ^ (30 : ℕ) := by
      rw [le_div_iff₀ hbq] at hge1
      linarith [hge1]
    exact_mod_cast hq
  have hn1 : 1 ≤ a * 2 ^ 30 / b := (Nat.one_le_div_iff hb).mpr hble
  -- the scaled value is below 2^300
  have hcast_le : ((a * 2 ^ 30 / b : ℕ) : ℚ) ≤ (a : ℚ) * 2 ^ (30 : ℕ) / b := by
    calc ((a * 2 ^ 30 / b : ℕ) : ℚ) ≤ ((a * 2 ^ 30 : ℕ) : ℚ) / b := Nat.cast_div_le
    _ = (a : ℚ) * 2 ^ (30 : ℕ) / b := by push_cast; ring
  have hn2 : a * 2 ^ 30 / b < 2 ^ 300 := by
    have hQ : ((a * 2 ^ 30 / b : ℕ) : ℚ) < 2 ^ (300 : ℕ) := by
      calc ((a * 2 ^ 30 / b : ℕ) : ℚ) ≤ (a : ℚ) * 2 ^ (30 : ℕ) / b := hcast_le
      _ = (a : ℚ) / b * 2 ^ (30 : ℕ) := by ring
      _ ≤ (2 : ℚ) ^ (200 : ℤ) * 2 ^ (30 : ℕ) := by
            have : (0:ℚ) < 2 ^ (30 : ℕ) := by positivity
            nlinarith [h2]
      _ = (2 : ℚ) ^ (230 : ℤ) := by
            rw [h30, ← zpow_add₀ (by norm_num : (2:ℚ) ≠ 0)]
            norm_num
      _ < 2 ^ (300 : ℕ) := by
            rw [show (2:ℚ) ^ (300 : ℕ) = (2:ℚ) ^ ((300 : ℕ) : ℤ) from (zpow_natCast 2 300).symm]
            rw [zpow_lt_zpow_iff_right₀ (by norm_num : (1:ℚ) < 2)]
            norm_num
    exact_mod_cast hQ
  obtain ⟨hlow, hhigh⟩ := lg2_spec 300 (a * 2 ^ 30 / b) hn1 hn2
  -- bridge the Nat bounds to the rational value
  have hup : (a : ℚ) * 2 ^ (30 : ℕ) / b < ((a * 2 ^ 30 / b : ℕ) : ℚ) + 1 := by
    have hdm := Nat.div_add_mod (a * 2 ^ 30) b
    have hml := Nat.mod_lt (a * 2 ^ 30) hb
    have hdist : b * (a * 2 ^ 30 / b + 1) = b * (a * 2 ^ 30 / b) + b := by ring
    have hNat : a * 2 ^ 30 < b * (a * 2 ^ 30 / b + 1) := by omega
    have hQ : (a : ℚ) * 2 ^ (30 : ℕ) < (b : ℚ) * (((a * 2 ^ 30 / b : ℕ) : ℚ) + 1) := by
      exact_mod_cast hNat
    rw [div_lt_iff₀ hbq]
    linarith
  have hlowQ : (2 : ℚ) ^ (lg2 300 (a * 2 ^ 30 / b) : ℕ) ≤ (a : ℚ) * 2 ^ (30 : ℕ) / b := by
    calc (2 : ℚ) ^ (lg2 300 (a * 2 ^ 30 / b) : ℕ) ≤ ((a * 2 ^ 30 / b : ℕ) : ℚ) := by
          exact_mod_cast hlow
    _ ≤ (a : ℚ) * 2 ^ (30 : ℕ) / b := hcast_le
  have hhighQ : (a : ℚ) * 2 ^ (30 : ℕ) / b < (2 : ℚ) ^ (lg2 300 (a * 2 ^ 30 / b) + 1 : ℕ) := by
    calc (a : ℚ) * 2 ^ (30 : ℕ) / b < ((a * 2 ^ 30 / b : ℕ) : ℚ) + 1 := hup
    _ ≤ (2 : ℚ) ^ (lg2 300 (a * 2 ^ 30 / b) + 1 : ℕ) := by exact_mod_cast hhigh
  -- divide through by 2^30
  have hpow30 : (0 : ℚ) < 2 ^ (30 : ℕ) := by positivity
  have hqdiv : (a : ℚ) / b = ((a : ℚ) * 2 ^ (30 : ℕ) / b) / 2 ^ (30 : ℕ) := by
    field_simp
    ring
  constructor
  · rw [hqdiv]
    unfold eRaw
    rw [zpow_sub₀ (by norm_num : (2:ℚ) ≠ 0), ← h30, zpow_natCast]
    gcongr
  · rw [hqdiv]
    have heq : eRaw a b + 1 = ((lg2 300 (a * 2 ^ 30 / b) + 1 : ℕ) : ℤ) - 30 := by
      unfold eRaw
      push_cast
      ring
    rw [heq, zpow_sub₀ (by norm_num : (2:ℚ) ≠ 0), ← h30, zpow_natCast]
    gcongr

theorem F32.val_mk (m : ℤ) (k : ℕ) : (F32.mk m k).val = (m : ℚ) / 2 ^ k := rfl

theorem roundPos_err (a b : ℕ) (hb : 0 < b)
    (h1 : (2 : ℚ) ^ (-30 : ℤ) ≤ (a : ℚ) / b) (h2 : (a : ℚ) / b ≤ (2 : ℚ) ^ (200 : ℤ)) :
    |(roundPos a b).val - (a : ℚ) / b| ≤ (a : ℚ) / b * (2 : ℚ) ^ (-24 : ℤ) := by
  obtain ⟨hle, hlt⟩ := eRaw_bounds a b hb h1 h2
  have hbq : (0 : ℚ) < b := by exact_mod_cast hb
  have h2ne : (2 : ℚ) ≠ 0 := by norm_num
  have hfin : ∀ E : ℤ, E = eRaw a b - 24 →
      (2 : ℚ) ^ E ≤ (a : ℚ) / b * (2 : ℚ) ^ (-24 : ℤ) := by
    intro E hE
    subst hE
    rw [show eRaw a b - 24 = eRaw a b + -24 by ring, zpow_add₀ h2ne]
    have hz : (0 : ℚ) ≤ (2 : ℚ) ^ (-24 : ℤ) := le_of_lt (by positivity)
    exact mul_le_mul_of_nonneg_right hle hz
  unfold roundPos
  by_cases he : eRaw a b ≤ 23
  · rw [if_pos he, F32.val_mk]
    set j : ℕ := (23 - eRaw a b).toNat with hjdef
    have hj : (j : ℤ) = 23 - eRaw a b := Int.toNat_of_nonneg (by omega)
    have herr := rheNat_abs_le (a * 2 ^ j) b hb
    have hsval : ((a * 2 ^ j : ℕ) : ℚ) / b = (a : ℚ) / b * 2 ^ j := by
      push_cast
      ring
    rw [hsval] at herr
    have hpj : (0 : ℚ) < 2 ^ j := by positivity
    have hval : ((rheNat (a * 2 ^ j) b : ℕ) : ℚ) / 2 ^ j - (a : ℚ) / b
        = (((rheNat (a * 2 ^ j) b : ℕ) : ℚ) - (a : ℚ) / b * 2 ^ j) / 2 ^ j := by
      field_simp
      ring
    have hcast : (((rheNat (a * 2 ^ j) b : ℕ) : ℤ) : ℚ) = ((rheNat (a * 2 ^ j) b : ℕ) : ℚ) := by
      push_cast
      rfl
    rw [hcast, hval, abs_div, abs_of_pos hpj]
    calc |((rheNat (a * 2 ^ j) b : ℕ) : ℚ) - (a : ℚ) / b * 2 ^ j| / 2 ^ j
        ≤ (1 / 2) / 2 ^ j := by gcongr
    _ = (2 : ℚ) ^ (eRaw a b - 24) := by
        rw [show (2 : ℚ) ^ j = (2 : ℚ) ^ (j : ℤ) from (zpow_natCast 2 j).symm]
        rw [show (1 : ℚ) / 2 = (2 : ℚ) ^ (-1 : ℤ) by norm_num]
        rw [← zpow_sub₀ h2ne]
        congr 1
        omega
    _ ≤ (a : ℚ) / b * (2 : ℚ) ^ (-24 : ℤ) := hfin _ rfl
  · rw [if_neg he, F32.val_mk]
    set i : ℕ := (eRaw a b - 23).toNat with hidef
    have hi : (i : ℤ) = eRaw a b - 23 := Int.toNat_of_nonneg (by omega)
    have hbi : 0 < b * 2 ^ i := by positivity
    have herr := rheNat_abs_le a (b * 2 ^ i) hbi
    have hsval : (a : ℚ) / ((b * 2 ^ i : ℕ) : ℚ) = (a : ℚ) / b / 2 ^ i := by
      push_cast
      rw [div_div]
    rw [hsval] at herr
    have hpi : (0 : ℚ) < 2 ^ i := by positivity
    have hval : ((rheNat a (b * 2 ^ i) * 2 ^ i : ℕ) : ℚ) / 2 ^ (0 : ℕ) - (a : ℚ) / b
        = (((rheNat a (b * 2 ^ i) : ℕ) : ℚ) - (a : ℚ) / b / 2 ^ i) * 2 ^ i := by
      push_cast
      field_simp
      ring
    have hcast : (((rheNat a (b * 2 ^ i) * 2 ^ i : ℕ) : ℤ) : ℚ)
        = ((rheNat a (b * 2 ^ i) * 2 ^ i : ℕ) : ℚ) := by
      push_cast
      rfl
    rw [hcast, hval, abs_mul, abs_of_pos hpi]
    calc |((rheNat a (b * 2 ^ i) : ℕ) : ℚ) - (a : ℚ) / b / 2 ^ i| * 2 ^ i
        ≤ (1 / 2) * 2 ^ i := by gcongr
    _ = (2 : ℚ) ^ (eRaw a b - 24) := by
        rw [show (2 : ℚ) ^ i = (2 : ℚ) ^ (i : ℤ) from (zpow_natCast 2 i).symm]
        rw [show (1 : ℚ) / 2 = (2 : ℚ) ^ (-1 : ℤ) by norm_num]
        rw [← zpow_add₀ h2ne]
        congr 1
        omega
    _ ≤ (a : ℚ) / b * (2 : ℚ) ^ (-24 : ℤ) := hfin _ rfl

theorem zpow_natCast_two (n : ℕ) : (2 : ℚ) ^ (n : ℤ) = (2 : ℚ) ^ n := zpow_natCast 2 n

theorem roundPos_exact (a b m0 : ℕ) (j : ℤ) (hb : 0 < b) (hm0 : 0 < m0) (hm : m0 < 2 ^ 24)
    (hj : -30 ≤ j) (hv : (a : ℚ) / b = (m0 : ℚ) * (2 : ℚ) ^ j)
    (h2 : (a : ℚ) / b ≤ (2 : ℚ) ^ (200 : ℤ)) :
    (roundPos a b).val = (a : ℚ) / b := by
  have h2ne : (2 : ℚ) ≠ 0 := by norm_num
  have hbq : (0 : ℚ) < b := by exact_mod_cast hb
  have hbne : (b : ℚ) ≠ 0 := ne_of_gt hbq
  have h1 : (2 : ℚ) ^ (-30 : ℤ) ≤ (a : ℚ) / b := by
    rw [hv]
    have hstep : (2 : ℚ) ^ (-30 : ℤ) ≤ (2 : ℚ) ^ j :=
      (zpow_le_zpow_iff_right₀ (by norm_num : (1:ℚ) < 2)).mpr hj
    have hone : (1 : ℚ) ≤ (m0 : ℚ) := by exact_mod_cast hm0
    have hz : (0 : ℚ) ≤ (2 : ℚ) ^ j := le_of_lt (by positivity)
    nlinarith
  obtain ⟨hle, hlt⟩ := eRaw_bounds a b hb h1 h2
  have hva : (a : ℚ) = (m0 : ℚ) * (2 : ℚ) ^ j * b := by
    field_simp at hv
    linarith
  have heub : eRaw a b ≤ j + 23 := by
    have hmq : (m0 : ℚ) < (2 : ℚ) ^ (24 : ℤ) := by
      have hcast : (m0 : ℚ) < ((2 ^ 24 : ℕ) : ℚ) := by exact_mod_cast hm
      have heq : ((2 ^ 24 : ℕ) : ℚ) = (2 : ℚ) ^ (24 : ℤ) := by norm_num
      rw [heq] at hcast
      exact hcast
    have hq_lt : (a : ℚ) / b < (2 : ℚ) ^ (j + 24) := by
      rw [hv, zpow_add₀ h2ne]
      have hz : (0 : ℚ) < (2 : ℚ) ^ j := by positivity
      nlinarith
    have hcmp := lt_of_le_of_lt hle hq_lt
    rw [zpow_lt_zpow_iff_right₀ (by norm_num : (1:ℚ) < 2)] at hcmp
    omega
  set N : ℕ := m0 * 2 ^ (j + 23 - eRaw a b).toNat with hN
  have hexp : ((j + 23 - eRaw a b).toNat : ℤ) = j + 23 - eRaw a b := Int.toNat_of_nonneg (by omega)
  have hNQ : (N : ℚ) = (m0 : ℚ) * (2 : ℚ) ^ (j + 23 - eRaw a b) := by
    rw [hN]
    push_cast
    rw [← zpow_natCast_two, hexp]
  have hNpos : 0 < N := by positivity
  unfold roundPos
  by_cases he : eRaw a b ≤ 23
  · rw [if_pos he, F32.val_mk]
    set jj : ℕ := (23 - eRaw a b).toNat with hjj
    have hjjz : (jj : ℤ) = 23 - eRaw a b := Int.toNat_of_nonneg (by omega)
    have hkeyQ : ((a * 2 ^ jj : ℕ) : ℚ) = ((N * b : ℕ) : ℚ) := by
      push_cast
      rw [hNQ, hva, ← zpow_natCast_two, hjjz]
      rw [show j + 23 - eRaw a b = j + (23 - eRaw a b) by ring, zpow_add₀ h2ne]
      ring
    have hkeyN : a * 2 ^ jj = N * b := by exact_mod_cast hkeyQ
    have hdvd : b ∣ a * 2 ^ jj := ⟨N, by rw [hkeyN]; ring⟩
    have hR : rheNat (a * 2 ^ jj) b = N := by
      rw [rheNat_exact _ _ hdvd, hkeyN, Nat.mul_div_cancel _ hb]
    rw [hR]
    push_cast
    rw [hNQ, hv, ← zpow_natCast_two, hjjz,
      div_eq_iff (by positivity : ((2:ℚ) ^ ((23 : ℤ) - eRaw a b)) ≠ 0)]
    rw [show j + 23 - eRaw a b = j + (23 - eRaw a b) by ring, zpow_add₀ h2ne]
    ring
  · rw [if_neg he, F32.val_mk]
    set i : ℕ := (eRaw a b - 23).toNat with hii
    have hiz : (i : ℤ) = eRaw a b - 23 := Int.toNat_of_nonneg (by omega)
    have hkeyQ : (a : ℚ) = ((N * (b * 2 ^ i) : ℕ) : ℚ) := by
      push_cast
      rw [hNQ, hva, ← zpow_natCast_two, hiz]
      rw [show (m0 : ℚ) * (2:ℚ) ^ (j + 23 - eRaw a b) * ((b : ℚ) * (2:ℚ) ^ (eRaw a b - 23))
          = (m0 : ℚ) * ((2:ℚ) ^ (j + 23 - eRaw a b) * (2:ℚ) ^ (eRaw a b - 23)) * b by ring]
      rw [← zpow_add₀ h2ne, show j + 23 - eRaw a b + (eRaw a b - 23) = j by ring]
    have hkeyN : a = N * (b * 2 ^ i) := by exact_mod_cast hkeyQ
    have hdvd : b * 2 ^ i ∣ a := ⟨N, by rw [hkeyN]; ring⟩
    have hbi : 0 < b * 2 ^ i := by positivity
    have hR : rheNat a (b * 2 ^ i) = N := by
      rw [rheNat_exact _ _ hdvd, hkeyN, Nat.mul_div_cancel _ hbi]
    rw [hR]
    push_cast
    rw [pow_zero, div_one, hNQ, hv, ← zpow_natCast_two, hiz, mul_assoc, ← zpow_add₀ h2ne,
      show j + 23 - eRaw a b + (eRaw a b - 23) = j by ring]

theorem roundPos_le_succ (a b : ℕ) (hb : 0 < b)
    (h1 : (2 : ℚ) ^ (-30 : ℤ) ≤ (a : ℚ) / b) (h2 : (a : ℚ) / b ≤ (2 : ℚ) ^ (200 : ℤ)) :
    (roundPos a b).val ≤ (2 : ℚ) ^ (eRaw a b + 1) := by
  obtain ⟨hle, hlt⟩ := eRaw_bounds a b hb h1 h2
  have h2ne : (2 : ℚ) ≠ 0 := by norm_num
  have hbq : (0 : ℚ) < b := by exact_mod_cast hb
  have h24 : ((2 ^ 24 : ℕ) : ℚ) = (2 : ℚ) ^ (24 : ℤ) := by norm_num
  unfold roundPos
  by_cases he : eRaw a b ≤ 23
  · rw [if_pos he, F32.val_mk]
    set jj : ℕ := (23 - eRaw a b).toNat with hjj
    have hjjz : (jj : ℤ) = 23 - eRaw a b := Int.toNat_of_nonneg (by omega)
    have herr := rheNat_abs_le (a * 2 ^ jj) b hb
    have hsval : ((a * 2 ^ jj : ℕ) : ℚ) / b = (a : ℚ) / b * 2 ^ jj := by
      push_cast
      ring
    rw [hsval] at herr
    have hpj : (0 : ℚ) < 2 ^ jj := by positivity
    have hprod : (a : ℚ) / b * 2 ^ jj < (2 : ℚ) ^ (24 : ℤ) := by
      have hmul := mul_lt_mul_of_pos_right hlt hpj
      calc (a : ℚ) / b * 2 ^ jj < (2 : ℚ) ^ (eRaw a b + 1) * 2 ^ jj := hmul
      _ = (2 : ℚ) ^ (24 : ℤ) := by
          rw [show ((2:ℚ) ^ (jj : ℕ)) = (2:ℚ) ^ ((jj : ℕ) : ℤ) from (zpow_natCast_two jj).symm]
          rw [← zpow_add₀ h2ne]
          congr 1
          omega
    have hRq : ((rheNat (a * 2 ^ jj) b : ℕ) : ℚ) < (2 : ℚ) ^ (24 : ℤ) + 1 / 2 := by
      have := abs_le.mp herr
      linarith [this.2]
    have hRn : rheNat (a * 2 ^ jj) b ≤ 2 ^ 24 := by
      by_contra hcon
      push_neg at hcon
      have : ((2 ^ 24 + 1 : ℕ) : ℚ) ≤ ((rheNat (a * 2 ^ jj) b : ℕ) : ℚ) := by
        exact_mod_cast hcon
      push_cast at this
      rw [← h24] at hRq
      push_cast at hRq
      linarith
    calc (((rheNat (a * 2 ^ jj) b : ℕ) : ℤ) : ℚ) / 2 ^ jj
        ≤ ((2 ^ 24 : ℕ) : ℚ) / 2 ^ jj := by
          gcongr
          exact_mod_cast hRn
    _ = (2 : ℚ) ^ (eRaw a b + 1) := by
          rw [h24, show ((2:ℚ) ^ (jj : ℕ)) = (2:ℚ) ^ ((jj : ℕ) : ℤ) from (zpow_natCast_two jj).symm]
          rw [← zpow_sub₀ h2ne]
          congr 1
          omega
  · rw [if_neg he, F32.val_mk]
    set i : ℕ := (eRaw a b - 23).toNat with hii
    have hiz : (i : ℤ) = eRaw a b - 23 := Int.toNat_of_nonneg (by omega)
    have hbi : 0 < b * 2 ^ i := by positivity
    have herr := rheNat_abs_le a (b * 2 ^ i) hbi
    have hsval : (a : ℚ) / ((b * 2 ^ i : ℕ) : ℚ) = (a : ℚ) / b / 2 ^ i := by
      push_cast
      rw [div_div]
    rw [hsval] at herr
    have hpi : (0 : ℚ) < 2 ^ i := by positivity
    have hprod : (a : ℚ) / b / 2 ^ i < (2 : ℚ) ^ (24 : ℤ) := by
      have hdiv := div_lt_div_of_pos_right hlt hpi
      calc (a : ℚ) / b / 2 ^ i < (2 : ℚ) ^ (eRaw a b + 1) / 2 ^ i := hdiv
      _ = (2 : ℚ) ^ (24 : ℤ) := by
          rw [show ((2:ℚ) ^ (i : ℕ)) = (2:ℚ) ^ ((i : ℕ) : ℤ) from (zpow_natCast_two i).symm]
          rw [← zpow_sub₀ h2ne]
          congr 1
          omega
    have hRq : ((rheNat a (b * 2 ^ i) : ℕ) : ℚ) < (2 : ℚ) ^ (24 : ℤ) + 1 / 2 := by
      have := abs_le.mp herr
      linarith [this.2]
    have hRn : rheNat a (b * 2 ^ i) ≤ 2 ^ 24 := by
      by_contra hcon
      push_neg at hcon
      have : ((2 ^ 24 + 1 : ℕ) : ℚ) ≤ ((rheNat a (b * 2 ^ i) : ℕ) : ℚ) := by
        exact_mod_cast hcon
      push_cast at this
      rw [← h24] at hRq
      push_cast at hRq
      linarith
    calc (((rheNat a (b * 2 ^ i) * 2 ^ i : ℕ) : ℤ) : ℚ) / 2 ^ (0 : ℕ)
        = ((rheNat a (b * 2 ^ i) : ℕ) : ℚ) * 2 ^ i := by
          push_cast
          ring
    _ ≤ ((2 ^ 24 : ℕ) : ℚ) * 2 ^ i := by
          gcongr
    _ = (2 : ℚ) ^ (eRaw a b + 1) := by
          rw [h24, show ((2:ℚ) ^ (i : ℕ)) = (2:ℚ) ^ ((i : ℕ) : ℤ) from (zpow_natCast_two i).symm]
          rw [← zpow_add₀ h2ne]
          congr 1
          omega

theorem roundPos_le_pow (a b : ℕ) (c : ℤ) (hb : 0 < b) (hc : -7 ≤ c)
    (h1 : (2 : ℚ) ^ (-30 : ℤ) ≤ (a : ℚ) / b) (hq : (a : ℚ) / b ≤ (2 : ℚ) ^ c)
    (h2 : (a : ℚ) / b ≤ (2 : ℚ) ^ (200 : ℤ)) :
    (roundPos a b).val ≤ (2 : ℚ) ^ c := by
  obtain ⟨hle, hlt⟩ := eRaw_bounds a b hb h1 h2
  have h2ne : (2 : ℚ) ≠ 0 := by norm_num
  have hec : eRaw a b ≤ c := by
    have hcmp := le_trans hle hq
    rwa [zpow_le_zpow_iff_right₀ (by norm_num : (1:ℚ) < 2)] at hcmp
  rcases eq_or_lt_of_le hec with heq | hlt2
  · have hqeq : (a : ℚ) / b = (2 : ℚ) ^ c := le_antisymm hq (by rw [← heq]; exact hle)
    have hc30 : -30 ≤ c - 23 := by omega
    have hval := roundPos_exact a b (2 ^ 23) (c - 23) hb (by positivity) (by norm_num)
      (by omega)
      (by rw [hqeq, show ((2 ^ 23 : ℕ) : ℚ) = (2:ℚ) ^ (23 : ℤ) by norm_num,
            ← zpow_add₀ h2ne, show (23 : ℤ) + (c - 23) = c by ring])
      h2
    rw [hval, hqeq]
  · have hbound := roundPos_le_succ a b hb h1 h2
    have hstep : (2 : ℚ) ^ (eRaw a b + 1) ≤ (2 : ℚ) ^ c :=
      (zpow_le_zpow_iff_right₀ (by norm_num : (1:ℚ) < 2)).mpr (by omega)
    linarith

theorem rheNat_zero (b : ℕ) : rheNat 0 b = 0 := by
  unfold rheNat
  rcases Nat.eq_zero_or_pos b with hb | hb
  · subst hb
    simp
  · simp [Nat.zero_div, Nat.zero_mod, hb]

theorem roundPos_zero_val (b : ℕ) : (roundPos 0 b).val = 0 := by
  unfold roundPos
  have hz : (0 : ℕ) * 2 ^ (23 - eRaw 0 b).toNat = 0 := by ring
  by_cases he : eRaw 0 b ≤ 23
  · rw [if_pos he, F32.val_mk, hz, rheNat_zero]
    norm_num
  · rw [if_neg he, F32.val_mk, rheNat_zero]
    norm_num

theorem roundPos_val_nonneg (a b : ℕ) : 0 ≤ (roundPos a b).val := by
  unfold roundPos
  by_cases he : eRaw a b ≤ 23
  · rw [if_pos he, F32.val_mk]
    positivity
  · rw [if_neg he, F32.val_mk]
    positivity

theorem roundF32_of_nonneg (A : ℤ) (b : ℕ) (hA : 0 ≤ A) :
    roundF32 A b = roundPos A.toNat b := by
  unfold roundF32
  rw [if_neg (not_lt.mpr hA)]

theorem roundF32_cast_div (A : ℤ) (b : ℕ) (hA : 0 ≤ A) :
    ((A.toNat : ℕ) : ℚ) / b = (A : ℚ) / b := by
  congr 1
  exact_mod_cast Int.toNat_of_nonneg hA

theorem roundF32_err (A : ℤ) (b : ℕ) (q : ℚ) (hb : 0 < b) (hA : 0 ≤ A)
    (hq : (A : ℚ) / b = q) (h1 : (2 : ℚ) ^ (-30 : ℤ) ≤ q) (h2 : q ≤ (2 : ℚ) ^ (200 : ℤ)) :
    |(roundF32 A b).val - q| ≤ q * (2 : ℚ) ^ (-24 : ℤ) := by
  rw [roundF32_of_nonneg A b hA, ← hq, ← roundF32_cast_div A b hA]
  exact roundPos_err A.toNat b hb
    (by rw [roundF32_cast_div A b hA, hq]; exact h1)
    (by rw [roundF32_cast_div A b hA, hq]; exact h2)

theorem roundF32_exact (A : ℤ) (b m0 : ℕ) (j : ℤ) (q : ℚ) (hb : 0 < b) (hA : 0 ≤ A)
    (hq : (A : ℚ) / b = q) (hm0 : 0 < m0) (hm : m0 < 2 ^ 24) (hj : -30 ≤ j)
    (hv : q = (m0 : ℚ) * (2 : ℚ) ^ j) (h2 : q ≤ (2 : ℚ) ^ (200 : ℤ)) :
    (roundF32 A b).val = q := by
  rw [roundF32_of_nonneg A b hA, ← hq, ← roundF32_cast_div A b hA]
  exact roundPos_exact A.toNat b m0 j hb hm0 hm hj
    (by rw [roundF32_cast_div A b hA, hq]; exact hv)
    (by rw [roundF32_cast_div A b hA, hq]; exact h2)

theorem roundF32_le_pow (A : ℤ) (b : ℕ) (c : ℤ) (q : ℚ) (hb : 0 < b) (hc : -7 ≤ c)
    (hA : 0 ≤ A) (hq : (A : ℚ) / b = q) (h1 : (2 : ℚ) ^ (-30 : ℤ) ≤ q)
    (hle : q ≤ (2 : ℚ) ^ c) (h2 : q ≤ (2 : ℚ) ^ (200 : ℤ)) :
    (roundF32 A b).val ≤ (2 : ℚ) ^ c := by
  rw [roundF32_of_nonneg A b hA]
  exact roundPos_le_pow A.toNat b c hb hc
    (by rw [roundF32_cast_div A b hA, hq]; exact h1)
    (by rw [roundF32_cast_div A b hA, hq]; exact hle)
    (by rw [roundF32_cast_div A b hA, hq]; exact h2)

theorem roundF32_val_nonneg (A : ℤ) (b : ℕ) (hA : 0 ≤ A) : 0 ≤ (roundF32 A b).val := by
  rw [roundF32_of_nonneg A b hA]
  exact roundPos_val_nonneg A.toNat b

theorem roundF32_zero_val (b : ℕ) : (roundF32 0 b).val = 0 := by
  rw [roundF32_of_nonneg 0 b le_rfl]
  exact roundPos_zero_val b

theorem f32lit_val (n : ℕ) : (f32lit n).val = n := by
  simp [f32lit, F32.val]

theorem f32ofNat_val (n : ℕ) (hn : n < 2 ^ 24) : (f32ofNat n).val = n := by
  unfold f32ofNat
  rcases Nat.eq_zero_or_pos n with h0 | h0
  · subst h0
    rw [show ((0 : ℕ) : ℤ) = 0 by norm_num, roundF32_zero_val]
    norm_num
  · have h200 : ((n : ℚ)) ≤ (2 : ℚ) ^ (200 : ℤ) := by
      rw [show ((2 : ℚ) ^ (200 : ℤ)) = ((2 : ℚ) ^ (200 : ℕ)) from zpow_natCast 2 200]
      have hle2 : ((n : ℚ)) ≤ (2 : ℚ) ^ (24 : ℕ) := by
        have hc : ((n : ℕ) : ℚ) ≤ ((2 ^ 24 : ℕ) : ℚ) := by exact_mod_cast le_of_lt hn
        push_cast at hc
        linarith
      have hle : (2 : ℚ) ^ (24 : ℕ) ≤ (2 : ℚ) ^ (200 : ℕ) :=
        pow_le_pow_right₀ (by norm_num) (by norm_num)
      linarith
    exact roundF32_exact n 1 n 0 n (by norm_num) (by positivity) (by push_cast; ring)
      h0 hn (by norm_num) (by norm_num) h200

theorem roundPos_m_nonneg (a b : ℕ) : 0 ≤ (roundPos a b).m := by
  unfold roundPos
  by_cases he : eRaw a b ≤ 23
  · rw [if_pos he]
    exact Int.natCast_nonneg _
  · rw [if_neg he]
    exact Int.natCast_nonneg _

theorem roundF32_m_nonneg (A : ℤ) (b : ℕ) (hA : 0 ≤ A) : 0 ≤ (roundF32 A b).m := by
  rw [roundF32_of_nonneg A b hA]
  exact roundPos_m_nonneg _ _

theorem f32div_lit (x : F32) (c : ℕ) : f32div x (f32lit c) = roundF32 x.m (c * 2 ^ x.k) := by
  unfold f32div f32lit
  rw [if_pos (by positivity : (0:ℤ) ≤ ((c : ℕ) : ℤ))]
  norm_num

theorem frac_div_lit (x : F32) (c : ℕ) (hc : 0 < c) :
    ((x.m : ℤ) : ℚ) / ((c * 2 ^ x.k : ℕ) : ℚ) = x.val / c := by
  unfold F32.val
  have hcq : ((c : ℕ) : ℚ) ≠ 0 := Nat.cast_ne_zero.mpr (by omega)
  push_cast
  rw [div_div]
  ring_nf

theorem frac_mul (x y : F32) :
    ((x.m * y.m : ℤ) : ℚ) / ((2 ^ (x.k + y.k) : ℕ) : ℚ) = x.val * y.val := by
  unfold F32.val
  push_cast
  rw [pow_add]
  rw [div_mul_div_comm]

theorem frac_add (x y : F32) :
    ((x.m * 2 ^ y.k + y.m * 2 ^ x.k : ℤ) : ℚ) / ((2 ^ (x.k + y.k) : ℕ) : ℚ)
      = x.val + y.val := by
  unfold F32.val
  have hx : ((2 : ℚ) ^ x.k) ≠ 0 := by positivity
  have hy : ((2 : ℚ) ^ y.k) ≠ 0 := by positivity
  push_cast
  rw [pow_add]
  field_simp

theorem frac_sub (x y : F32) :
    ((x.m * 2 ^ y.k - y.m * 2 ^ x.k : ℤ) : ℚ) / ((2 ^ (x.k + y.k) : ℕ) : ℚ)
      = x.val - y.val := by
  unfold F32.val
  have hx : ((2 : ℚ) ^ x.k) ≠ 0 := by positivity
  have hy : ((2 : ℚ) ^ y.k) ≠ 0 := by positivity
  push_cast
  rw [pow_add]
  field_simp
  ring

theorem f32round_eq_lit (x : F32) (t : ℕ) (hx : 0 ≤ x.m)
    (hnear : |x.val - (t : ℚ)| < 1 / 2) : f32round x = f32lit t := by
  unfold f32round f32lit
  rw [if_neg (not_lt.mpr hx)]
  have hk : (0 : ℚ) < 2 ^ x.k := by positivity
  have hmv : ((x.m.toNat : ℕ) : ℚ) = (x.m : ℚ) := by exact_mod_cast Int.toNat_of_nonneg hx
  obtain ⟨hlo, hhi⟩ := abs_lt.mp hnear
  have hexp : ((x.m : ℚ) / 2 ^ x.k - t) * 2 ^ x.k = (x.m : ℚ) - t * 2 ^ x.k := by
    field_simp
    ring
  have hlo' : (t : ℚ) * 2 ^ x.k - 2 ^ x.k / 2 < (x.m : ℚ) := by
    unfold F32.val at hlo
    have hm := mul_lt_mul_of_pos_right hlo hk
    rw [hexp] at hm
    linarith
  have hhi' : (x.m : ℚ) < (t : ℚ) * 2 ^ x.k + 2 ^ x.k / 2 := by
    unfold F32.val at hhi
    have hm := mul_lt_mul_of_pos_right hhi hk
    rw [hexp] at hm
    linarith
  have hlon : t * 2 ^ (x.k + 1) < 2 * x.m.toNat + 2 ^ x.k := by
    have hq : ((t * 2 ^ (x.k + 1) : ℕ) : ℚ) < ((2 * x.m.toNat + 2 ^ x.k : ℕ) : ℚ) := by
      push_cast
      rw [hmv]
      rw [pow_succ]
      nlinarith
    exact_mod_cast hq
  have hhin : 2 * x.m.toNat + 2 ^ x.k < (t + 1) * 2 ^ (x.k + 1) := by
    have hq : ((2 * x.m.toNat + 2 ^ x.k : ℕ) : ℚ) < (((t + 1) * 2 ^ (x.k + 1) : ℕ) : ℚ) := by
      push_cast
      rw [hmv]
      rw [pow_succ]
      nlinarith
    exact_mod_cast hq
  congr 1
  · have hdiv : (2 * x.m.toNat + 2 ^ x.k) / 2 ^ (x.k + 1) = t := by
      apply Nat.div_eq_of_lt_le
      · omega
      · omega
    rw [hdiv]

theorem f32toU32_lit (t : ℕ) (ht : t ≤ 2 ^ 32 - 1) : f32toU32 (f32lit t) = t := by
  unfold f32toU32 f32lit
  rw [if_neg (not_lt.mpr (by positivity : (0:ℤ) ≤ ((t : ℕ) : ℤ)))]
  simp only [Int.toNat_natCast, pow_zero, Nat.div_one]
  omega

theorem f32toU32_eq (x : F32) (c : ℕ) (hx : 0 ≤ x.m) (hc : c ≤ 2 ^ 32 - 1)
    (hlo : (c : ℚ) ≤ x.val) (hhi : x.val < (c : ℚ) + 1) : f32toU32 x = c := by
  unfold f32toU32
  rw [if_neg (not_lt.mpr hx)]
  have hk : (0 : ℚ) < 2 ^ x.k := by positivity
  have hmv : ((x.m.toNat : ℕ) : ℚ) = (x.m : ℚ) := by exact_mod_cast Int.toNat_of_nonneg hx
  unfold F32.val at hlo hhi
  have hlon : c * 2 ^ x.k ≤ x.m.toNat := by
    have hq : ((c * 2 ^ x.k : ℕ) : ℚ) ≤ ((x.m.toNat : ℕ) : ℚ) := by
      push_cast
      rw [hmv]
      rw [le_div_iff₀ hk] at hlo
      linarith
    exact_mod_cast hq
  have hhin : x.m.toNat < (c + 1) * 2 ^ x.k := by
    have hq : ((x.m.toNat : ℕ) : ℚ) < (((c + 1) * 2 ^ x.k : ℕ) : ℚ) := by
      push_cast
      rw [hmv]
      rw [div_lt_iff₀ hk] at hhi
      linarith
    exact_mod_cast hq
  have hdiv : x.m.toNat / 2 ^ x.k = c := Nat.div_eq_of_lt_le hlon hhin
  rw [hdiv]
  omega

theorem f32toU32_bounds (x : F32) (hx : 0 ≤ x.m) (hlt : x.val < ((2 ^ 32 - 1 : ℕ) : ℚ)) :
    ((f32toU32 x : ℕ) : ℚ) ≤ x.val ∧ x.val < ((f32toU32 x : ℕ) : ℚ) + 1 := by
  unfold f32toU32
  rw [if_neg (not_lt.mpr hx)]
  have hk : (0 : ℚ) < 2 ^ x.k := by positivity
  have hmv : ((x.m.toNat : ℕ) : ℚ) = (x.m : ℚ) := by exact_mod_cast Int.toNat_of_nonneg hx
  have hdm := Nat.div_add_mod x.m.toNat (2 ^ x.k)
  have hml := Nat.mod_lt x.m.toNat (show 0 < 2 ^ x.k by positivity)
  have hlo : ((x.m.toNat / 2 ^ x.k : ℕ) : ℚ) ≤ x.val := by
    unfold F32.val
    rw [le_div_iff₀ hk, ← hmv]
    exact_mod_cast Nat.div_mul_le_self x.m.toNat (2 ^ x.k)
  have hfl : x.m.toNat < (x.m.toNat / 2 ^ x.k + 1) * 2 ^ x.k := by
    have hdist : (x.m.toNat / 2 ^ x.k + 1) * 2 ^ x.k
        = 2 ^ x.k * (x.m.toNat / 2 ^ x.k) + 2 ^ x.k := by ring
    omega
  have hhi : x.val < ((x.m.toNat / 2 ^ x.k : ℕ) : ℚ) + 1 := by
    unfold F32.val
    rw [div_lt_iff₀ hk, ← hmv]
    calc ((x.m.toNat : ℕ) : ℚ) < (((x.m.toNat / 2 ^ x.k + 1) * 2 ^ x.k : ℕ) : ℚ) := by
          exact_mod_cast hfl
    _ = (((x.m.toNat / 2 ^ x.k : ℕ) : ℚ) + 1) * 2 ^ x.k := by push_cast; ring
  have hminc : min (x.m.toNat / 2 ^ x.k) (2 ^ 32 - 1) = x.m.toNat / 2 ^ x.k := by
    rcases le_or_lt (x.m.toNat / 2 ^ x.k) (2 ^ 32 - 1) with hcase | hcase
    · exact min_eq_left hcase
    · exfalso
      have hge : ((2 ^ 32 - 1 : ℕ) : ℚ) ≤ ((x.m.toNat / 2 ^ x.k : ℕ) : ℚ) := by
        exact_mod_cast le_of_lt hcase
      linarith [le_trans hge hlo]
  rw [hminc]
  exact ⟨hlo, hhi⟩

theorem f32op_err (A : ℤ) (b : ℕ) (q : ℚ) (hb : 0 < b) (hA : 0 ≤ A)
    (hq : (A : ℚ) / b = q) (hup : q ≤ (2 : ℚ) ^ (200 : ℤ))
    (hz : q = 0 ∨ (2 : ℚ) ^ (-30 : ℤ) ≤ q) :
    |(roundF32 A b).val - q| ≤ q * (2 : ℚ) ^ (-24 : ℤ) := by
  rcases hz with h0 | hge
  · have hA0 : A = 0 := by
      rw [h0] at hq
      field_simp at hq
      exact_mod_cast hq
    rw [hA0, roundF32_zero_val, h0]
    norm_num
  · exact roundF32_err A b q hb hA hq hge hup

theorem rnat_bounds (a b : ℕ) (hb : 0 < b) :
    (a : ℚ) / b - 1 / 2 < (rnat a b : ℚ) ∧ (rnat a b : ℚ) ≤ (a : ℚ) / b + 1 / 2 := by
  have hbq : (0 : ℚ) < b := by exact_mod_cast hb
  have h2b : 0 < 2 * b := by omega
  have hdm := Nat.div_add_mod (2 * a + b) (2 * b)
  have hml := Nat.mod_lt (2 * a + b) h2b
  have hup2 : 2 * a + b < 2 * b * ((2 * a + b) / (2 * b)) + 2 * b := by omega
  have hlow : 2 * b * ((2 * a + b) / (2 * b)) ≤ 2 * a + b := by omega
  have hcast1 : 2 * (a : ℚ) + b < 2 * b * (((2 * a + b) / (2 * b) : ℕ) : ℚ) + 2 * b := by
    exact_mod_cast hup2
  have hcast2 : 2 * (b : ℚ) * (((2 * a + b) / (2 * b) : ℕ) : ℚ) ≤ 2 * a + b := by
    exact_mod_cast hlow
  unfold rnat
  constructor
  · rw [sub_lt_iff_lt_add, div_lt_iff₀ hbq]
    nlinarith
  · rw [show (a : ℚ) / b + 1 / 2 = (2 * a + b) / (2 * b) by field_simp; ring,
      le_div_iff₀ (by positivity : (0:ℚ) < 2 * (b : ℚ))]
    nlinarith

theorem rnat_exact (a b : ℕ) (hb : 0 < b) (hdvd : b ∣ a) : rnat a b = a / b := by
  obtain ⟨c, rfl⟩ := hdvd
  unfold rnat
  have h1 : 2 * (b * c) + b = b * (2 * c + 1) := by ring
  have h2 : 2 * b > 0 := by omega
  rw [h1, Nat.mul_div_cancel_left _ hb]
  rw [show 2 * b = b * 2 by ring]
  rw [Nat.mul_div_mul_left _ _ hb]
  omega

theorem F32.m_eq_zero (x : F32) (hm : 0 ≤ x.m) (hv : x.val = 0) : x.m = 0 := by
  unfold F32.val at hv
  have hk : ((2 : ℚ) ^ x.k) ≠ 0 := by positivity
  field_simp at hv
  exact_mod_cast hv

theorem one_le_two_pow_200 : (1 : ℚ) ≤ (2 : ℚ) ^ (200 : ℤ) := by
  rw [show ((2 : ℚ) ^ (200 : ℤ)) = ((2 : ℚ) ^ (200 : ℕ)) from zpow_natCast 2 200]
  exact one_le_pow₀ (by norm_num)

theorem le_two_pow_200 (q : ℚ) (hq : q ≤ 4096) : q ≤ (2 : ℚ) ^ (200 : ℤ) := by
  rw [show ((2 : ℚ) ^ (200 : ℤ)) = ((2 : ℚ) ^ (200 : ℕ)) from zpow_natCast 2 200]
  have h1 : (2 : ℚ) ^ (12 : ℕ) ≤ (2 : ℚ) ^ (200 : ℕ) := pow_le_pow_right₀ (by norm_num) (by norm_num)
  have h2 : ((2 : ℚ) ^ (12 : ℕ)) = 4096 := by norm_num
  linarith

theorem ratio_m_nonneg (n : ℕ) : 0 ≤ (f32div (f32ofNat n) (f32lit 100)).m := by
  rw [f32div_lit]
  exact roundF32_m_nonneg _ _ (roundF32_m_nonneg n 1 (by positivity))

theorem ratio_val_nonneg (n : ℕ) : 0 ≤ (f32div (f32ofNat n) (f32lit 100)).val := by
  rw [f32div_lit]
  exact roundF32_val_nonneg _ _ (roundF32_m_nonneg n 1 (by positivity))

theorem ratio_frac (n : ℕ) (hn : n ≤ 100) :
    (((f32ofNat n).m : ℤ) : ℚ) / ((100 * 2 ^ (f32ofNat n).k : ℕ) : ℚ) = (n : ℚ) / 100 := by
  rw [frac_div_lit (f32ofNat n) 100 (by norm_num), f32ofNat_val n (by omega)]
  norm_num

theorem ratio_zero_val : (f32div (f32ofNat 0) (f32lit 100)).val = 0 := by
  rw [f32div_lit]
  have hm0 : (f32ofNat 0).m = 0 :=
    F32.m_eq_zero _ (roundF32_m_nonneg 0 1 (by positivity))
      (by rw [f32ofNat_val 0 (by norm_num)]; norm_num)
  rw [hm0, roundF32_zero_val]

theorem ratio_val_le_one (n : ℕ) (hn : n ≤ 100) :
    (f32div (f32ofNat n) (f32lit 100)).val ≤ 1 := by
  rcases Nat.eq_zero_or_pos n with h0 | h0
  · subst h0
    rw [ratio_zero_val]
    norm_num
  · rw [f32div_lit]
    have hle := roundF32_le_pow (f32ofNat n).m (100 * 2 ^ (f32ofNat n).k) 0 ((n : ℚ) / 100)
      (by positivity) (by norm_num) (roundF32_m_nonneg n 1 (by positivity)) (ratio_frac n hn)
      (by
        have : (1 : ℚ) ≤ (n : ℚ) := by exact_mod_cast h0
        have h100 : (n : ℚ) ≤ 100 := by exact_mod_cast hn
        rw [show ((2:ℚ) ^ (-30 : ℤ)) = 1 / 1073741824 by norm_num]
        rw [le_div_iff₀ (by norm_num : (0:ℚ) < 100)]
        linarith)
      (by
        have h100 : (n : ℚ) ≤ 100 := by exact_mod_cast hn
        rw [show ((2:ℚ) ^ (0 : ℤ)) = 1 by norm_num, div_le_one (by norm_num : (0:ℚ) < 100)]
        linarith)
      (le_two_pow_200 _ (by
        have h100 : (n : ℚ) ≤ 100 := by exact_mod_cast hn
        have : (n : ℚ) / 100 ≤ 1 := by
          rw [div_le_one (by norm_num : (0:ℚ) < 100)]
          linarith
        linarith))
    simpa using hle

theorem ratio_err (n : ℕ) (hn : n ≤ 100) :
    |(f32div (f32ofNat n) (f32lit 100)).val - (n : ℚ) / 100| ≤ (2 : ℚ) ^ (-24 : ℤ) := by
  rcases Nat.eq_zero_or_pos n with h0 | h0
  · subst h0
    rw [ratio_zero_val]
    norm_num
  · rw [f32div_lit]
    have h100 : (n : ℚ) ≤ 100 := by exact_mod_cast hn
    have h1n : (1 : ℚ) ≤ (n : ℚ) := by exact_mod_cast h0
    have hdivle : (n : ℚ) / 100 ≤ 1 := by
      rw [div_le_one (by norm_num : (0:ℚ) < 100)]
      linarith
    have herr := roundF32_err (f32ofNat n).m (100 * 2 ^ (f32ofNat n).k) ((n : ℚ) / 100)
      (by positivity) (roundF32_m_nonneg n 1 (by positivity)) (ratio_frac n hn)
      (by
        rw [show ((2:ℚ) ^ (-30 : ℤ)) = 1 / 1073741824 by norm_num]
        rw [le_div_iff₀ (by norm_num : (0:ℚ) < 100)]
        linarith)
      (le_two_pow_200 _ (by linarith))
    have hmono : (n : ℚ) / 100 * (2 : ℚ) ^ (-24 : ℤ) ≤ (2 : ℚ) ^ (-24 : ℤ) := by
      have hz : (0 : ℚ) ≤ (2 : ℚ) ^ (-24 : ℤ) := by positivity
      nlinarith
    exact le_trans herr hmono

theorem ratio_gap (n : ℕ) (hn : n ≤ 100) :
    (f32div (f32ofNat n) (f32lit 100)).val = 0 ∨
      (2 : ℚ) ^ (-8 : ℤ) ≤ (f32div (f32ofNat n) (f32lit 100)).val := by
  rcases Nat.eq_zero_or_pos n with h0 | h0
  · subst h0
    exact Or.inl ratio_zero_val
  · right
    have herr := ratio_err n hn
    have h1n : (1 : ℚ) ≤ (n : ℚ) := by exact_mod_cast h0
    obtain ⟨hlo, hhi⟩ := abs_le.mp herr
    have hge : (1 : ℚ) / 100 ≤ (n : ℚ) / 100 := by gcongr
    rw [show ((2:ℚ) ^ (-8 : ℤ)) = 1 / 256 by norm_num]
    rw [show ((2:ℚ) ^ (-24 : ℤ)) = 1 / 16777216 by norm_num] at hlo
    linarith

theorem ratio_one_val : (f32div (f32ofNat 100) (f32lit 100)).val = 1 := by
  rw [f32div_lit]
  exact roundF32_exact _ _ 1 0 1 (by positivity) (roundF32_m_nonneg 100 1 (by positivity))
    (by rw [ratio_frac 100 le_rfl]; norm_num) (by norm_num) (by norm_num) (by norm_num)
    (by norm_num) one_le_two_pow_200

theorem ratio_half_val : (f32div (f32ofNat 50) (f32lit 100)).val = 1 / 2 := by
  rw [f32div_lit]
  refine roundF32_exact _ _ 1 (-1) (1 / 2) (by positivity)
    (roundF32_m_nonneg 50 1 (by positivity))
    (by rw [ratio_frac 50 (by norm_num)]; norm_num) (by norm_num) (by norm_num) (by norm_num)
    (by norm_num) (le_two_pow_200 _ (by norm_num))

theorem sub_one_m_nonneg (r : F32) (h1 : r.val ≤ 1) :
    0 ≤ (f32lit 1).m * 2 ^ r.k - r.m * 2 ^ (f32lit 1).k := by
  unfold F32.val at h1
  have hk : (0 : ℚ) < 2 ^ r.k := by positivity
  rw [div_le_one hk] at h1
  have hZ : r.m ≤ 2 ^ r.k := by exact_mod_cast h1
  unfold f32lit
  simp only [pow_zero, mul_one, one_mul]
  omega

theorem inv_spec (r : F32) (hm : 0 ≤ r.m) (h1 : r.val ≤ 1)
    (hgap : r.val = 1 ∨ (2 : ℚ) ^ (-8 : ℤ) ≤ 1 - r.val) :
    0 ≤ (f32sub (f32lit 1) r).m ∧ 0 ≤ (f32sub (f32lit 1) r).val ∧
    (f32sub (f32lit 1) r).val ≤ 1 ∧
    |(f32sub (f32lit 1) r).val - (1 - r.val)| ≤ (2 : ℚ) ^ (-24 : ℤ) ∧
    ((f32sub (f32lit 1) r).val = 0 ∨ (2 : ℚ) ^ (-9 : ℤ) ≤ (f32sub (f32lit 1) r).val) := by
  have hA := sub_one_m_nonneg r h1
  have hfrac : (((f32lit 1).m * 2 ^ r.k - r.m * 2 ^ (f32lit 1).k : ℤ) : ℚ)
      / ((2 ^ ((f32lit 1).k + r.k) : ℕ) : ℚ) = 1 - r.val := by
    rw [frac_sub (f32lit 1) r, f32lit_val]
    norm_num
  have hbpos : 0 < 2 ^ ((f32lit 1).k + r.k) := by positivity
  have hsub1 : f32sub (f32lit 1) r
      = roundF32 ((f32lit 1).m * 2 ^ r.k - r.m * 2 ^ (f32lit 1).k) (2 ^ ((f32lit 1).k + r.k)) :=
    rfl
  rcases hgap with hone | hgap
  · have hAz : (f32lit 1).m * 2 ^ r.k - r.m * 2 ^ (f32lit 1).k = 0 := by
      have hc := hfrac
      rw [hone] at hc
      have hb0 : ((2 ^ ((f32lit 1).k + r.k) : ℕ) : ℚ) ≠ 0 := by positivity
      have hc2 : (((f32lit 1).m * 2 ^ r.k - r.m * 2 ^ (f32lit 1).k : ℤ) : ℚ) = 0 := by
        rw [show (1 : ℚ) - 1 = 0 by norm_num] at hc
        field_simp at hc
        exact_mod_cast hc
      exact_mod_cast hc2
    have hv0 : (f32sub (f32lit 1) r).val = 0 := by
      rw [hsub1, hAz, roundF32_zero_val]
    refine ⟨?_, ?_, ?_, ?_, Or.inl hv0⟩
    · rw [hsub1, hAz]
      exact roundF32_m_nonneg _ _ le_rfl
    · rw [hv0]
    · rw [hv0]
      norm_num
    · rw [hv0, hone]
      norm_num
  · have hqpos : (0 : ℚ) < 1 - r.val := by
      have h8 : (0:ℚ) < (2:ℚ) ^ (-8 : ℤ) := by positivity
      linarith
    have hq1 : 1 - r.val ≤ 1 := by
      have hr0 : 0 ≤ r.val := by
        by_contra hcon
        push_neg at hcon
        have hmq : (0 : ℚ) ≤ (r.m : ℚ) := by exact_mod_cast hm
        have : (0 : ℚ) ≤ r.val := by
          unfold F32.val
          positivity
        linarith
      linarith
    have herr : |(f32sub (f32lit 1) r).val - (1 - r.val)| ≤ (1 - r.val) * (2 : ℚ) ^ (-24 : ℤ) := by
      rw [hsub1]
      apply f32op_err _ _ _ hbpos hA hfrac
      · exact le_two_pow_200 _ (by linarith)
      · right
        calc (2 : ℚ) ^ (-30 : ℤ) ≤ (2 : ℚ) ^ (-8 : ℤ) := by norm_num
        _ ≤ 1 - r.val := hgap
    have hmono : (1 - r.val) * (2 : ℚ) ^ (-24 : ℤ) ≤ (2 : ℚ) ^ (-24 : ℤ) := by
      have hz : (0 : ℚ) ≤ (2 : ℚ) ^ (-24 : ℤ) := by positivity
      nlinarith
    have herr2 := le_trans herr hmono
    obtain ⟨hlo, hhi⟩ := abs_le.mp herr2
    refine ⟨by rw [hsub1]; exact roundF32_m_nonneg _ _ hA,
      by rw [hsub1]; exact roundF32_val_nonneg _ _ hA, ?_, herr2, Or.inr ?_⟩
    · rw [hsub1]
      apply roundF32_le_pow _ _ 0 (1 - r.val) hbpos (by norm_num) hA hfrac
      · calc (2 : ℚ) ^ (-30 : ℤ) ≤ (2 : ℚ) ^ (-8 : ℤ) := by norm_num
        _ ≤ 1 - r.val := hgap
      · rw [show ((2:ℚ) ^ (0 : ℤ)) = 1 by norm_num]
        exact hq1
      · exact le_two_pow_200 _ (by linarith)
    · rw [show ((2:ℚ) ^ (-9 : ℤ)) = 1 / 512 by norm_num]
      rw [show ((2:ℚ) ^ (-24 : ℤ)) = 1 / 16777216 by norm_num] at hlo
      rw [show ((2:ℚ) ^ (-8 : ℤ)) = 1 / 256 by norm_num] at hgap
      linarith

theorem inv_half (r : F32) (hm : 0 ≤ r.m) (hv : r.val = 1 / 2) :
    (f32sub (f32lit 1) r).val = 1 / 2 := by
  have hA := sub_one_m_nonneg r (by rw [hv]; norm_num)
  have hfrac : (((f32lit 1).m * 2 ^ r.k - r.m * 2 ^ (f32lit 1).k : ℤ) : ℚ)
      / ((2 ^ ((f32lit 1).k + r.k) : ℕ) : ℚ) = 1 / 2 := by
    rw [frac_sub (f32lit 1) r, f32lit_val, hv]
    norm_num
  have hbpos : 0 < 2 ^ ((f32lit 1).k + r.k) := by positivity
  have hsub1 : f32sub (f32lit 1) r
      = roundF32 ((f32lit 1).m * 2 ^ r.k - r.m * 2 ^ (f32lit 1).k) (2 ^ ((f32lit 1).k + r.k)) :=
    rfl
  rw [hsub1]
  refine roundF32_exact _ _ 1 (-1) (1 / 2) hbpos hA hfrac (by norm_num)
    (by norm_num) (by norm_num) (by norm_num) (le_two_pow_200 _ (by norm_num))

theorem mulNat_frac (d : ℕ) (r : F32) (hd : d < 2 ^ 24) :
    (((f32ofNat d).m * r.m : ℤ) : ℚ) / ((2 ^ ((f32ofNat d).k + r.k) : ℕ) : ℚ)
      = (d : ℚ) * r.val := by
  rw [frac_mul (f32ofNat d) r, f32ofNat_val d hd]

theorem mulNat_err (d : ℕ) (r : F32) (hd : d ≤ 1000) (hm : 0 ≤ r.m) (h0 : 0 ≤ r.val)
    (h1 : r.val ≤ 1) (hgap : r.val = 0 ∨ (2 : ℚ) ^ (-9 : ℤ) ≤ r.val) :
    0 ≤ (f32mul (f32ofNat d) r).m ∧ 0 ≤ (f32mul (f32ofNat d) r).val ∧
    |(f32mul (f32ofNat d) r).val - (d : ℚ) * r.val|
      ≤ (d : ℚ) * r.val * (2 : ℚ) ^ (-24 : ℤ) := by
  have hxm : 0 ≤ (f32ofNat d).m := roundF32_m_nonneg d 1 (by positivity)
  have hA : 0 ≤ (f32ofNat d).m * r.m := mul_nonneg hxm hm
  have hbpos : 0 < 2 ^ ((f32ofNat d).k + r.k) := by positivity
  have hmeq : f32mul (f32ofNat d) r
      = roundF32 ((f32ofNat d).m * r.m) (2 ^ ((f32ofNat d).k + r.k)) := rfl
  have hfrac := mulNat_frac d r (by omega)
  have hdq : (d : ℚ) ≤ 1000 := by exact_mod_cast hd
  refine ⟨by rw [hmeq]; exact roundF32_m_nonneg _ _ hA,
    by rw [hmeq]; exact roundF32_val_nonneg _ _ hA, ?_⟩
  rw [hmeq]
  apply f32op_err _ _ _ hbpos hA hfrac
  · apply le_two_pow_200
    nlinarith
  · rcases Nat.eq_zero_or_pos d with hd0 | hd0
    · left
      subst hd0
      norm_num
    · rcases hgap with hr0 | hr9
      · left
        rw [hr0]
        ring
      · right
        have hd1 : (1 : ℚ) ≤ (d : ℚ) := by exact_mod_cast hd0
        have h9 : (0:ℚ) < (2:ℚ) ^ (-9 : ℤ) := by positivity
        calc (2 : ℚ) ^ (-30 : ℤ) ≤ (2 : ℚ) ^ (-9 : ℤ) := by norm_num
        _ = 1 * (2 : ℚ) ^ (-9 : ℤ) := by ring
        _ ≤ (d : ℚ) * r.val := by nlinarith

theorem mulNat_half (d : ℕ) (r : F32) (hd : d ≤ 2000) (hm : 0 ≤ r.m) (hv : r.val = 1 / 2) :
    (f32mul (f32ofNat d) r).val = (d : ℚ) / 2 := by
  have hxm : 0 ≤ (f32ofNat d).m := roundF32_m_nonneg d 1 (by positivity)
  have hA : 0 ≤ (f32ofNat d).m * r.m := mul_nonneg hxm hm
  have hbpos : 0 < 2 ^ ((f32ofNat d).k + r.k) := by positivity
  have hmeq : f32mul (f32ofNat d) r
      = roundF32 ((f32ofNat d).m * r.m) (2 ^ ((f32ofNat d).k + r.k)) := rfl
  have hfrac := mulNat_frac d r (by omega)
  rw [hv] at hfrac
  rcases Nat.eq_zero_or_pos d with hd0 | hd0
  · subst hd0
    have hxm0 : (f32ofNat 0).m = 0 :=
      F32.m_eq_zero _ hxm (by rw [f32ofNat_val 0 (by norm_num)]; norm_num)
    rw [hmeq, hxm0]
    norm_num
    exact roundF32_zero_val _
  · rw [hmeq]
    have hq : (d : ℚ) * (1 / 2) = (d : ℚ) / 2 := by ring
    rw [hq] at hfrac
    refine roundF32_exact _ _ d (-1) ((d : ℚ) / 2) hbpos hA hfrac hd0 (by omega) (by norm_num)
      (by rw [show ((2:ℚ) ^ (-1 : ℤ)) = 1 / 2 by norm_num]; ring)
      (le_two_pow_200 _ (by
        have hdq : (d : ℚ) ≤ 2000 := by exact_mod_cast hd
        linarith))

theorem addF32_err (x y : F32) (hx : 0 ≤ x.m) (hy : 0 ≤ y.m) (hup : x.val + y.val ≤ 4096)
    (hz : x.val + y.val = 0 ∨ (2 : ℚ) ^ (-10 : ℤ) ≤ x.val + y.val) :
    0 ≤ (f32add x y).m ∧
    |(f32add x y).val - (x.val + y.val)| ≤ (x.val + y.val) * (2 : ℚ) ^ (-24 : ℤ) := by
  have hA : 0 ≤ x.m * 2 ^ y.k + y.m * 2 ^ x.k := by positivity
  have hbpos : 0 < 2 ^ (x.k + y.k) := by positivity
  have hmeq : f32add x y = roundF32 (x.m * 2 ^ y.k + y.m * 2 ^ x.k) (2 ^ (x.k + y.k)) := rfl
  have hfrac := frac_add x y
  refine ⟨by rw [hmeq]; exact roundF32_m_nonneg _ _ hA, ?_⟩
  rw [hmeq]
  apply f32op_err _ _ _ hbpos hA hfrac (le_two_pow_200 _ hup)
  rcases hz with h | h
  · exact Or.inl h
  · right
    calc (2 : ℚ) ^ (-30 : ℤ) ≤ (2 : ℚ) ^ (-10 : ℤ) := by norm_num
    _ ≤ x.val + y.val := h

theorem addF32_halves (x y : F32) (a1 a2 : ℕ) (hx : 0 ≤ x.m) (hy : 0 ≤ y.m)
    (hxa : x.val = (a1 : ℚ) / 2) (hya : y.val = (a2 : ℚ) / 2) (hs : a1 + a2 ≤ 4000) :
    (f32add x y).val = ((a1 + a2 : ℕ) : ℚ) / 2 := by
  have hA : 0 ≤ x.m * 2 ^ y.k + y.m * 2 ^ x.k := by positivity
  have hbpos : 0 < 2 ^ (x.k + y.k) := by positivity
  have hmeq : f32add x y = roundF32 (x.m * 2 ^ y.k + y.m * 2 ^ x.k) (2 ^ (x.k + y.k)) := rfl
  have hfrac := frac_add x y
  rw [hxa, hya] at hfrac
  have hsum : (a1 : ℚ) / 2 + (a2 : ℚ) / 2 = ((a1 + a2 : ℕ) : ℚ) / 2 := by
    push_cast
    ring
  rw [hsum] at hfrac
  rcases Nat.eq_zero_or_pos (a1 + a2) with h0 | h0
  · have ha1 : a1 = 0 := by omega
    have ha2 : a2 = 0 := by omega
    have hx0 : x.m = 0 := F32.m_eq_zero x hx (by rw [hxa, ha1]; norm_num)
    have hy0 : y.m = 0 := F32.m_eq_zero y hy (by rw [hya, ha2]; norm_num)
    rw [hmeq, hx0, hy0]
    have hz0 : (0 : ℤ) * 2 ^ y.k + 0 * 2 ^ x.k = 0 := by ring
    rw [hz0, roundF32_zero_val, ha1, ha2]
    norm_num
  · rw [hmeq]
    refine roundF32_exact _ _ (a1 + a2) (-1) (((a1 + a2 : ℕ) : ℚ) / 2) hbpos hA hfrac h0
      (by omega) (by norm_num)
      (by rw [show ((2:ℚ) ^ (-1 : ℤ)) = 1 / 2 by norm_num]; ring)
      (le_two_pow_200 _ (by
        have hq : ((a1 + a2 : ℕ) : ℚ) ≤ 4000 := by exact_mod_cast hs
        linarith))

theorem mul_le_1000 (a b : ℚ) (ha0 : 0 ≤ a) (ha : a ≤ 1000) (hb0 : 0 ≤ b) (hb : b ≤ 1) :
    0 ≤ a * b ∧ a * b ≤ 1000 :=
  ⟨mul_nonneg ha0 hb0, by nlinarith⟩

theorem lower_of_pos (dq wv zv : ℚ) (hdle : dq ≤ 1000) (hdd : dq = 0 ∨ 1 ≤ dq)
    (hw : 0 ≤ wv) (hz : 0 ≤ zv) (herr : |zv - dq * wv| ≤ dq * wv * (1 / 16777216))
    (hgap : wv = 0 ∨ 1 / 512 ≤ wv) (hzpos : 0 < zv) : 1 / 1024 ≤ zv := by
  obtain ⟨hzlo, hzhi⟩ := abs_le.mp herr
  have hdw : (0 : ℚ) < dq * wv := by
    by_contra hcon
    push_neg at hcon
    have hd0 : 0 ≤ dq := by
      rcases hdd with h | h
      · rw [h]
      · linarith
    have hdw0 : dq * wv = 0 := le_antisymm hcon (mul_nonneg hd0 hw)
    rw [hdw0] at hzlo hzhi
    simp at hzlo hzhi
    linarith
  have hd1 : 1 ≤ dq := by
    rcases hdd with h | h
    · rw [h] at hdw
      simp at hdw
    · exact h
  have hw512 : 1 / 512 ≤ wv := by
    rcases hgap with h | h
    · rw [h, mul_zero] at hdw
      exact absurd hdw (lt_irrefl 0)
    · exact h
  have hdwge : 1 / 512 ≤ dq * wv := by
    have hmul : 1 * (1 / 512) ≤ dq * wv :=
      mul_le_mul hd1 hw512 (by norm_num) (by linarith)
    linarith
  linarith

theorem blendArith (A B cq rv ivv e1v e2v sv : ℚ)
    (hA0 : 0 ≤ A) (hA1 : A ≤ 1000) (hB0 : 0 ≤ B) (hB1 : B ≤ 1000)
    (hc0 : 0 ≤ cq) (hc1 : cq ≤ 100)
    (hr0 : 0 ≤ rv) (hr1 : rv ≤ 1) (hre : |rv - cq / 100| ≤ 1 / 16777216)
    (hi0 : 0 ≤ ivv) (hi1 : ivv ≤ 1) (hie : |ivv - (1 - rv)| ≤ 1 / 16777216)
    (he1nn : 0 ≤ e1v) (he1 : |e1v - A * rv| ≤ A * rv * (1 / 16777216))
    (he2nn : 0 ≤ e2v) (he2 : |e2v - B * ivv| ≤ B * ivv * (1 / 16777216))
    (hs : |sv - (e1v + e2v)| ≤ (e1v + e2v) * (1 / 16777216)) :
    |sv - (A * (cq / 100) + B * ((100 - cq) / 100))| ≤ 1 / 1000 ∧
      sv ≤ 1000 + 1 / 1000 := by
  obtain ⟨hrlo, hrhi⟩ := abs_le.mp hre
  obtain ⟨hilo, hihi⟩ := abs_le.mp hie
  obtain ⟨he1lo, he1hi⟩ := abs_le.mp he1
  obtain ⟨he2lo, he2hi⟩ := abs_le.mp he2
  obtain ⟨hslo, hshi⟩ := abs_le.mp hs
  obtain ⟨hp1, hp1b⟩ := mul_le_1000 A rv hA0 hA1 hr0 hr1
  obtain ⟨hp2, hp2b⟩ := mul_le_1000 B ivv hB0 hB1 hi0 hi1
  have he1up : e1v ≤ 1001 := by linarith
  have he2up : e2v ≤ 1001 := by linarith
  have hArv : |A * rv - A * (cq / 100)| ≤ 1000 / 16777216 := by
    have heqm : A * rv - A * (cq / 100) = A * (rv - cq / 100) := by ring
    rw [heqm, abs_mul, abs_of_nonneg hA0]
    calc A * |rv - cq / 100| ≤ 1000 * (1 / 16777216) :=
          mul_le_mul hA1 hre (abs_nonneg _) (by norm_num)
      _ = 1000 / 16777216 := by norm_num
  have heq100 : (100 - cq) / 100 = 1 - cq / 100 := by ring
  have hIv : |ivv - (100 - cq) / 100| ≤ 2 / 16777216 := by
    rw [heq100, abs_le]
    constructor <;> linarith
  have hBiv : |B * ivv - B * ((100 - cq) / 100)| ≤ 2000 / 16777216 := by
    have heqm : B * ivv - B * ((100 - cq) / 100) = B * (ivv - (100 - cq) / 100) := by ring
    rw [heqm, abs_mul, abs_of_nonneg hB0]
    calc B * |ivv - (100 - cq) / 100| ≤ 1000 * (2 / 16777216) :=
          mul_le_mul hB1 hIv (abs_nonneg _) (by norm_num)
      _ = 2000 / 16777216 := by norm_num
  obtain ⟨hAlo, hAhi⟩ := abs_le.mp hArv
  obtain ⟨hBlo, hBhi⟩ := abs_le.mp hBiv
  have hgoal : |sv - (A * (cq / 100) + B * ((100 - cq) / 100))| ≤ 1 / 1000 := by
    rw [abs_le]
    constructor <;> linarith
  obtain ⟨hglo, hghi⟩ := abs_le.mp hgoal
  have hWle : A * (cq / 100) + B * ((100 - cq) / 100) ≤ 1000 := by
    have hq1 : (0:ℚ) ≤ cq / 100 := by positivity
    have hq2 : (0:ℚ) ≤ (100 - cq) / 100 := by
      have hnn : (0:ℚ) ≤ 100 - cq := by linarith
      positivity
    have hcollapse : 1000 * (cq / 100) + 1000 * ((100 - cq) / 100) = 1000 := by
      ring
    have hm1 := mul_le_mul_of_nonneg_right hA1 hq1
    have hm2 := mul_le_mul_of_nonneg_right hB1 hq2
    linarith
  exact ⟨hgoal, by linarith⟩

set_option maxHeartbeats 1000000 in
theorem f32blendDensity_spec (C d1 d2 : ℕ) (hC : C ≤ 100) (h1 : d1 ≤ 1000) (h2 : d2 ≤ 1000) :
    f32blendDensity C d1 d2 ≤ 1000 ∧
    ((f32blendDensity C d1 d2 : ℕ) : ℚ)
        ≤ ((d1 * C + d2 * (100 - C) : ℕ) : ℚ) / 100 + 1 / 1000 ∧
    ((d1 * C + d2 * (100 - C) : ℕ) : ℚ) / 100
        < ((f32blendDensity C d1 d2 : ℕ) : ℚ) + 1 + 1 / 1000 := by
  have hd1q : (d1 : ℚ) ≤ 1000 := by exact_mod_cast h1
  have hd2q : (d2 : ℚ) ≤ 1000 := by exact_mod_cast h2
  have hd1q0 : (0 : ℚ) ≤ (d1 : ℚ) := Nat.cast_nonneg d1
  have hd2q0 : (0 : ℚ) ≤ (d2 : ℚ) := Nat.cast_nonneg d2
  have hCq : (C : ℚ) ≤ 100 := by exact_mod_cast hC
  have hCq0 : (0 : ℚ) ≤ (C : ℚ) := Nat.cast_nonneg C
  set r := f32div (f32ofNat C) (f32lit 100) with hrdef
  have hrm := ratio_m_nonneg C
  have hr0 := ratio_val_nonneg C
  have hr1 := ratio_val_le_one C hC
  have hre := ratio_err C hC
  have hrg := ratio_gap C hC
  have hinvgap : r.val = 1 ∨ (2 : ℚ) ^ (-8 : ℤ) ≤ 1 - r.val := by
    by_cases hc100 : C = 100
    · left
      rw [hrdef, hc100]
      exact ratio_one_val
    · right
      have hC99 : C ≤ 99 := by omega
      have hC99q : (C : ℚ) ≤ 99 := by exact_mod_cast hC99
      obtain ⟨hlo, hhi⟩ := abs_le.mp hre
      rw [show ((2:ℚ) ^ (-8 : ℤ)) = 1 / 256 by norm_num]
      rw [show ((2:ℚ) ^ (-24 : ℤ)) = 1 / 16777216 by norm_num] at hhi
      have hfrac : (C : ℚ) / 100 ≤ 99 / 100 := by
        rw [div_le_div_iff₀ (by norm_num : (0:ℚ) < 100) (by norm_num : (0:ℚ) < 100)]
        linarith
      linarith
  set iv := f32sub (f32lit 1) r with hivdef
  obtain ⟨him, hiv0, hiv1, hierr, hig⟩ := inv_spec r hrm hr1 hinvgap
  have hrg9 : r.val = 0 ∨ (2 : ℚ) ^ (-9 : ℤ) ≤ r.val := by
    rcases hrg with h | h
    · exact Or.inl h
    · right
      calc (2 : ℚ) ^ (-9 : ℤ) ≤ (2 : ℚ) ^ (-8 : ℤ) := by norm_num
      _ ≤ r.val := h
  set e1 := f32mul (f32ofNat d1) r with he1def
  set e2 := f32mul (f32ofNat d2) iv with he2def
  obtain ⟨he1m, he1v, he1err⟩ := mulNat_err d1 r h1 hrm hr0 hr1 hrg9
  obtain ⟨he2m, he2v, he2err⟩ := mulNat_err d2 iv h2 him hiv0 hiv1 hig
  have hep : ((2:ℚ) ^ (-24 : ℤ)) = 1 / 16777216 := by norm_num
  rw [hep] at he1err he2err hierr hre
  have hsz : e1.val + e2.val = 0 ∨ (2 : ℚ) ^ (-10 : ℤ) ≤ e1.val + e2.val := by
    rcases eq_or_lt_of_le (add_nonneg he1v he2v) with h0 | hpos
    · exact Or.inl h0.symm
    · right
      rw [show ((2:ℚ) ^ (-10 : ℤ)) = 1 / 1024 by norm_num]
      have hrg512 : r.val = 0 ∨ 1 / 512 ≤ r.val := by
        rcases hrg9 with h | h
        · exact Or.inl h
        · right
          rw [show ((2:ℚ) ^ (-9 : ℤ)) = 1 / 512 by norm_num] at h
          exact h
      have hig512 : iv.val = 0 ∨ 1 / 512 ≤ iv.val := by
        rcases hig with h | h
        · exact Or.inl h
        · right
          rw [show ((2:ℚ) ^ (-9 : ℤ)) = 1 / 512 by norm_num] at h
          exact h
      have hd1cases : (d1 : ℚ) = 0 ∨ 1 ≤ (d1 : ℚ) := by
        rcases Nat.eq_zero_or_pos d1 with h | h
        · left
          exact_mod_cast congrArg (Nat.cast : ℕ → ℚ) h
        · right
          exact_mod_cast h
      have hd2cases : (d2 : ℚ) = 0 ∨ 1 ≤ (d2 : ℚ) := by
        rcases Nat.eq_zero_or_pos d2 with h | h
        · left
          exact_mod_cast congrArg (Nat.cast : ℕ → ℚ) h
        · right
          exact_mod_cast h
      rcases lt_or_le 0 e1.val with h1p | h1z
      · have hk := lower_of_pos (d1 : ℚ) r.val e1.val hd1q hd1cases hr0 he1v he1err hrg512 h1p
        linarith
      · have he1z : e1.val = 0 := le_antisymm h1z he1v
        have h2p : 0 < e2.val := by linarith
        have hk := lower_of_pos (d2 : ℚ) iv.val e2.val hd2q hd2cases hiv0 he2v he2err hig512 h2p
        linarith
  obtain ⟨hsm, hserr⟩ := addF32_err e1 e2 he1m he2m (by
    obtain ⟨hp1, hp1b⟩ := mul_le_1000 (d1 : ℚ) r.val hd1q0 hd1q hr0 hr1
    obtain ⟨hp2, hp2b⟩ := mul_le_1000 (d2 : ℚ) iv.val hd2q0 hd2q hiv0 hiv1
    obtain ⟨he1lo, he1hi⟩ := abs_le.mp he1err
    obtain ⟨he2lo, he2hi⟩ := abs_le.mp he2err
    nlinarith) hsz
  set s := f32add e1 e2 with hsdef
  rw [hep] at hserr
  obtain ⟨hB1, hB2⟩ := blendArith (d1 : ℚ) (d2 : ℚ) (C : ℚ) r.val iv.val e1.val e2.val s.val
    hd1q0 hd1q hd2q0 hd2q hCq0 hCq hr0 hr1 hre hiv0 hiv1 hierr he1v he1err he2v he2err hserr
  obtain ⟨hglo, hghi⟩ := abs_le.mp hB1
  have hWcast : ((d1 * C + d2 * (100 - C) : ℕ) : ℚ) / 100
      = (d1 : ℚ) * ((C : ℚ) / 100) + (d2 : ℚ) * ((100 - (C : ℚ)) / 100) := by
    push_cast [hC]
    ring
  have hslt : s.val < ((2 ^ 32 - 1 : ℕ) : ℚ) := by
    have hbig : ((2 ^ 32 - 1 : ℕ) : ℚ) = 4294967295 := by norm_num
    rw [hbig]
    linarith
  obtain ⟨hulo, huhi⟩ := f32toU32_bounds s hsm hslt
  have hdefeq : f32blendDensity C d1 d2 = f32toU32 s := rfl
  have hu1000 : f32toU32 s ≤ 1000 := by
    by_contra hcon
    push_neg at hcon
    have hq : ((1001 : ℕ) : ℚ) ≤ ((f32toU32 s : ℕ) : ℚ) := by exact_mod_cast hcon
    push_cast at hq
    linarith
  refine ⟨by rw [hdefeq]; exact hu1000, ?_, ?_⟩
  · rw [hdefeq, hWcast]
    linarith
  · rw [hdefeq, hWcast]
    linarith

theorem le_two_pow_200_big (q : ℚ) (hq : q ≤ 4194304) : q ≤ (2 : ℚ) ^ (200 : ℤ) := by
  rw [show ((2 : ℚ) ^ (200 : ℤ)) = ((2 : ℚ) ^ (200 : ℕ)) from zpow_natCast 2 200]
  have h1 : (2 : ℚ) ^ (22 : ℕ) ≤ (2 : ℚ) ^ (200 : ℕ) :=
    pow_le_pow_right₀ (by norm_num) (by norm_num)
  have h2 : ((2 : ℚ) ^ (22 : ℕ)) = 4194304 := by norm_num
  linarith

theorem mulNat_err_big (d : ℕ) (r : F32) (hd : d ≤ 4000000) (hm : 0 ≤ r.m) (h0 : 0 ≤ r.val)
    (h1 : r.val ≤ 1) (hgap : r.val = 0 ∨ (2 : ℚ) ^ (-9 : ℤ) ≤ r.val) :
    0 ≤ (f32mul (f32ofNat d) r).m ∧ 0 ≤ (f32mul (f32ofNat d) r).val ∧
    |(f32mul (f32ofNat d) r).val - (d : ℚ) * r.val|
      ≤ (d : ℚ) * r.val * (2 : ℚ) ^ (-24 : ℤ) := by
  have hxm : 0 ≤ (f32ofNat d).m := roundF32_m_nonneg d 1 (by positivity)
  have hA : 0 ≤ (f32ofNat d).m * r.m := mul_nonneg hxm hm
  have hbpos : 0 < 2 ^ ((f32ofNat d).k + r.k) := by positivity
  have hmeq : f32mul (f32ofNat d) r
      = roundF32 ((f32ofNat d).m * r.m) (2 ^ ((f32ofNat d).k + r.k)) := rfl
  have hfrac := mulNat_frac d r (by omega)
  have hdq : (d : ℚ) ≤ 4000000 := by exact_mod_cast hd
  refine ⟨by rw [hmeq]; exact roundF32_m_nonneg _ _ hA,
    by rw [hmeq]; exact roundF32_val_nonneg _ _ hA, ?_⟩
  rw [hmeq]
  apply f32op_err _ _ _ hbpos hA hfrac
  · apply le_two_pow_200_big
    have hq := mul_le_mul hdq h1 h0 (by norm_num : (0:ℚ) ≤ 4000000)
    linarith
  · rcases Nat.eq_zero_or_pos d with hd0 | hd0
    · left
      subst hd0
      norm_num
    · rcases hgap with hr0 | hr9
      · left
        rw [hr0]
        ring
      · right
        have hd1 : (1 : ℚ) ≤ (d : ℚ) := by exact_mod_cast hd0
        have h9 : (0:ℚ) < (2:ℚ) ^ (-9 : ℤ) := by positivity
        calc (2 : ℚ) ^ (-30 : ℤ) ≤ (2 : ℚ) ^ (-9 : ℤ) := by norm_num
        _ = 1 * (2 : ℚ) ^ (-9 : ℤ) := by ring
        _ ≤ (d : ℚ) * r.val := by nlinarith

theorem scaled_total_exact (t e' : ℕ) (ht : t ≤ 4000000) (he : e' ≤ 100)
    (hdvd : 100 ∣ t * e') :
    f32toU32 (f32round (f32mul (f32ofNat t) (f32div (f32ofNat e') (f32lit 100))))
      = rnat (t * e') 100 := by
  have hrm := ratio_m_nonneg e'
  have hr0 := ratio_val_nonneg e'
  have hr1 := ratio_val_le_one e' he
  have hre := ratio_err e' he
  have hrg := ratio_gap e' he
  set r := f32div (f32ofNat e') (f32lit 100) with hrdef
  have hrg9 : r.val = 0 ∨ (2 : ℚ) ^ (-9 : ℤ) ≤ r.val := by
    rcases hrg with h | h
    · exact Or.inl h
    · right
      calc (2 : ℚ) ^ (-9 : ℤ) ≤ (2 : ℚ) ^ (-8 : ℤ) := by norm_num
      _ ≤ r.val := h
  obtain ⟨hpm, hpv, hperr⟩ := mulNat_err_big t r ht hrm hr0 hr1 hrg9
  set p := f32mul (f32ofNat t) r with hpdef
  obtain ⟨k, hk⟩ := hdvd
  have hrn : rnat (t * e') 100 = k := by
    rw [hk]
    have h1 := rnat_exact (100 * k) 100 (by norm_num) ⟨k, rfl⟩
    rwa [Nat.mul_div_cancel_left k (by norm_num : 0 < 100)] at h1
  have hkt : k ≤ t := by
    have h1 : t * e' ≤ t * 100 := Nat.mul_le_mul_left t he
    have h2 : 100 * k ≤ 100 * t := by
      calc 100 * k = t * e' := hk.symm
      _ ≤ t * 100 := h1
      _ = 100 * t := Nat.mul_comm t 100
    exact Nat.le_of_mul_le_mul_left h2 (by norm_num)
  have hkq : (k : ℚ) = (t : ℚ) * ((e' : ℚ) / 100) := by
    have hq : (t : ℚ) * (e' : ℚ) = 100 * (k : ℚ) := by exact_mod_cast hk
    field_simp
    linarith
  have h24 : ((2:ℚ) ^ (-24 : ℤ)) = 1 / 16777216 := by norm_num
  rw [h24] at hperr hre
  have htq : (t : ℚ) ≤ 4000000 := by exact_mod_cast ht
  have ht0 : (0:ℚ) ≤ (t:ℚ) := Nat.cast_nonneg t
  have hmul : (t:ℚ) * r.val ≤ (t:ℚ) := by
    have h := mul_le_mul_of_nonneg_left hr1 ht0
    rwa [mul_one] at h
  have habs1 : |p.val - (t:ℚ) * r.val| ≤ (t:ℚ) * (1/16777216) := by
    refine le_trans hperr ?_
    exact mul_le_mul_of_nonneg_right hmul (by norm_num)
  have habs2 : |(t:ℚ) * r.val - (k:ℚ)| ≤ (t:ℚ) * (1/16777216) := by
    rw [hkq]
    have heqm : (t:ℚ) * r.val - (t:ℚ) * ((e':ℚ)/100) = (t:ℚ) * (r.val - (e':ℚ)/100) := by ring
    rw [heqm, abs_mul, abs_of_nonneg ht0]
    exact mul_le_mul_of_nonneg_left hre ht0
  have hnear : |p.val - (k:ℚ)| < 1/2 := by
    have hsplit : p.val - (k:ℚ) = (p.val - (t:ℚ)*r.val) + ((t:ℚ)*r.val - (k:ℚ)) := by ring
    have htri : |p.val - (k:ℚ)| ≤ |p.val - (t:ℚ)*r.val| + |(t:ℚ)*r.val - (k:ℚ)| := by
      rw [hsplit]
      exact abs_add _ _
    have hbig : (t:ℚ) * (1/16777216) ≤ 4000000 * (1/16777216) := by linarith
    calc |p.val - (k:ℚ)| ≤ (t:ℚ)*(1/16777216) + (t:ℚ)*(1/16777216) := by linarith
    _ ≤ 4000000*(1/16777216) + 4000000*(1/16777216) := by linarith
    _ < 1/2 := by norm_num
  rw [f32round_eq_lit p k hpm hnear, f32toU32_lit k (by omega), hrn]

theorem f32blendDensity_half (d1 d2 : ℕ) (h1 : d1 ≤ 1000) (h2 : d2 ≤ 1000) :
    f32blendDensity 50 d1 d2 = (d1 + d2) / 2 := by
  have hrm := ratio_m_nonneg 50
  have hrv : (f32div (f32ofNat 50) (f32lit 100)).val = 1 / 2 := ratio_half_val
  set r := f32div (f32ofNat 50) (f32lit 100) with hrdef
  obtain ⟨hivm, hiv0, hiv1, hiverr, hivgap⟩ :=
    inv_spec r hrm (by rw [hrv]; norm_num) (Or.inr (by rw [hrv]; norm_num))
  have hivv : (f32sub (f32lit 1) r).val = 1 / 2 := inv_half r hrm hrv
  set iv := f32sub (f32lit 1) r with hivdef
  have he1 : (f32mul (f32ofNat d1) r).val = (d1 : ℚ) / 2 := mulNat_half d1 r (by omega) hrm hrv
  have he2 : (f32mul (f32ofNat d2) iv).val = (d2 : ℚ) / 2 :=
    mulNat_half d2 iv (by omega) hivm hivv
  have he1m : 0 ≤ (f32mul (f32ofNat d1) r).m := by
    have hmeq : f32mul (f32ofNat d1) r
        = roundF32 ((f32ofNat d1).m * r.m) (2 ^ ((f32ofNat d1).k + r.k)) := rfl
    rw [hmeq]
    exact roundF32_m_nonneg _ _ (mul_nonneg (roundF32_m_nonneg d1 1 (by positivity)) hrm)
  have he2m : 0 ≤ (f32mul (f32ofNat d2) iv).m := by
    have hmeq : f32mul (f32ofNat d2) iv
        = roundF32 ((f32ofNat d2).m * iv.m) (2 ^ ((f32ofNat d2).k + iv.k)) := rfl
    rw [hmeq]
    exact roundF32_m_nonneg _ _ (mul_nonneg (roundF32_m_nonneg d2 1 (by positivity)) hivm)
  set e1 := f32mul (f32ofNat d1) r with he1def
  set e2 := f32mul (f32ofNat d2) iv with he2def
  have hsv : (f32add e1 e2).val = ((d1 + d2 : ℕ) : ℚ) / 2 :=
    addF32_halves e1 e2 d1 d2 he1m he2m he1 he2 (by omega)
  have hsm : 0 ≤ (f32add e1 e2).m := by
    have hmeq : f32add e1 e2
        = roundF32 (e1.m * 2 ^ e2.k + e2.m * 2 ^ e1.k) (2 ^ (e1.k + e2.k)) := rfl
    rw [hmeq]
    exact roundF32_m_nonneg _ _
      (add_nonneg (mul_nonneg he1m (by positivity)) (mul_nonneg he2m (by positivity)))
  have hdefeq : f32blendDensity 50 d1 d2 = f32toU32 (f32add e1 e2) := rfl
  rw [hdefeq]
  refine f32toU32_eq _ ((d1 + d2) / 2) hsm (by omega) ?_ ?_
  · rw [hsv, le_div_iff₀ (by norm_num : (0:ℚ) < 2)]
    exact_mod_cast Nat.div_mul_le_self (d1 + d2) 2
  · rw [hsv, div_lt_iff₀ (by norm_num : (0:ℚ) < 2)]
    have hlt : d1 + d2 < ((d1 + d2) / 2 + 1) * 2 := by omega
    calc ((d1 + d2 : ℕ) : ℚ) < ((((d1 + d2) / 2 + 1) * 2 : ℕ) : ℚ) := by exact_mod_cast hlt
    _ = ((((d1 + d2) / 2 : ℕ) : ℚ) + 1) * 2 := by push_cast; ring

/-! ## Shape lemmas for `energy_density` and the provided method -/

theorem energy_density_mixed_eq (F1 F2 : FuelTy) (v1 v2 : ℕ)
    (h1 : energy_density F1 = some v1) (h2 : energy_density F2 = some v2) :
    energy_density (FuelTy.mixed F1 F2)
      = some ((intoBTU (outputUnit F1) v1 + intoBTU (outputUnit F2) v2) % 2 ^ 32 / 2) := by
  show (match energy_density F1, energy_density F2 with
    | some a, some b =>
      some ((intoBTU (outputUnit F1) a + intoBTU (outputUnit F2) b) % 2 ^ 32 / 2)
    | _, _ => none) = _
  rw [h1, h2]

theorem energy_density_mixed_none_l (F1 F2 : FuelTy)
    (h1 : energy_density F1 = none) :
    energy_density (FuelTy.mixed F1 F2) = none := by
  show (match energy_density F1, energy_density F2 with
    | some a, some b =>
      some ((intoBTU (outputUnit F1) a + intoBTU (outputUnit F2) b) % 2 ^ 32 / 2)
    | _, _ => none) = _
  rw [h1]

theorem energy_density_mixed_none_r (F1 F2 : FuelTy) (v1 : ℕ)
    (h1 : energy_density F1 = some v1) (h2 : energy_density F2 = none) :
    energy_density (FuelTy.mixed F1 F2) = none := by
  show (match energy_density F1, energy_density F2 with
    | some a, some b =>
      some ((intoBTU (outputUnit F1) a + intoBTU (outputUnit F2) b) % 2 ^ 32 / 2)
    | _, _ => none) = _
  rw [h1, h2]

theorem energy_density_custom_eq (C : ℕ) (F1 F2 : FuelTy) (v1 v2 : ℕ) (hC : C ≤ 100)
    (h1 : energy_density F1 = some v1) (h2 : energy_density F2 = some v2) :
    energy_density (FuelTy.customMixed C F1 F2)
      = some (f32blendDensity C (intoBTU (outputUnit F1) v1) (intoBTU (outputUnit F2) v2)) := by
  show (if C ≤ 100 then
      match energy_density F1, energy_density F2 with
      | some a, some b =>
        some (f32blendDensity C (intoBTU (outputUnit F1) a) (intoBTU (outputUnit F2) b))
      | _, _ => none
    else none) = _
  rw [if_pos hC, h1, h2]

theorem energy_density_custom_none_l (C : ℕ) (F1 F2 : FuelTy) (hC : C ≤ 100)
    (h1 : energy_density F1 = none) :
    energy_density (FuelTy.customMixed C F1 F2) = none := by
  show (if C ≤ 100 then
      match energy_density F1, energy_density F2 with
      | some a, some b =>
        some (f32blendDensity C (intoBTU (outputUnit F1) a) (intoBTU (outputUnit F2) b))
      | _, _ => none
    else none) = _
  rw [if_pos hC, h1]

theorem energy_density_custom_none_r (C : ℕ) (F1 F2 : FuelTy) (v1 : ℕ) (hC : C ≤ 100)
    (h1 : energy_density F1 = some v1) (h2 : energy_density F2 = none) :
    energy_density (FuelTy.customMixed C F1 F2) = none := by
  show (if C ≤ 100 then
      match energy_density F1, energy_density F2 with
      | some a, some b =>
        some (f32blendDensity C (intoBTU (outputUnit F1) a) (intoBTU (outputUnit F2) b))
      | _, _ => none
    else none) = _
  rw [if_pos hC, h1, h2]

theorem energy_density_custom_big (C : ℕ) (F1 F2 : FuelTy) (hC : ¬ C ≤ 100) :
    energy_density (FuelTy.customMixed C F1 F2) = none := by
  show (if C ≤ 100 then
      match energy_density F1, energy_density F2 with
      | some a, some b =>
        some (f32blendDensity C (intoBTU (outputUnit F1) a) (intoBTU (outputUnit F2) b))
      | _, _ => none
    else none) = _
  rw [if_neg hC]

theorem densityBTU_le (F : FuelTy) : ∀ v : ℕ, energy_density F = some v →
    intoBTU (outputUnit F) v ≤ 1000 := by
  induction F with
  | diesel =>
    intro v hv
    simp only [energy_density, Option.some.injEq] at hv
    subst hv
    decide
  | lithiumBattery =>
    intro v hv
    simp only [energy_density, Option.some.injEq] at hv
    subst hv
    decide
  | uranium =>
    intro v hv
    simp only [energy_density, Option.some.injEq] at hv
    subst hv
    decide
  | mixed F1 F2 ih1 ih2 =>
    intro v hv
    rcases h1 : energy_density F1 with _ | v1
    · rw [energy_density_mixed_none_l F1 F2 h1] at hv
      exact Option.noConfusion hv
    rcases h2 : energy_density F2 with _ | v2
    · rw [energy_density_mixed_none_r F1 F2 v1 h1 h2] at hv
      exact Option.noConfusion hv
    rw [energy_density_mixed_eq F1 F2 v1 v2 h1 h2, Option.some.injEq] at hv
    have hb1 := ih1 v1 h1
    have hb2 := ih2 v2 h2
    subst hv
    show (intoBTU (outputUnit F1) v1 + intoBTU (outputUnit F2) v2) % 2 ^ 32 / 2 ≤ 1000
    omega
  | customMixed C F1 F2 ih1 ih2 =>
    intro v hv
    by_cases hC : C ≤ 100
    · rcases h1 : energy_density F1 with _ | v1
      · rw [energy_density_custom_none_l C F1 F2 hC h1] at hv
        exact Option.noConfusion hv
      rcases h2 : energy_density F2 with _ | v2
      · rw [energy_density_custom_none_r C F1 F2 v1 hC h1 h2] at hv
        exact Option.noConfusion hv
      rw [energy_density_custom_eq C F1 F2 v1 v2 hC h1 h2, Option.some.injEq] at hv
      have hb1 := ih1 v1 h1
      have hb2 := ih2 v2 h2
      subst hv
      show f32blendDensity C (intoBTU (outputUnit F1) v1) (intoBTU (outputUnit F2) v2) ≤ 1000
      exact (f32blendDensity_spec C _ _ hC hb1 hb2).1
    · rw [energy_density_custom_big C F1 F2 hC] at hv
      exact Option.noConfusion hv

theorem pewe_none (F : FuelTy) (amount e : ℕ) (h : energy_density F = none) :
    provide_energy_with_efficiency F amount e = none := by
  show (match energy_density F with
    | none => none
    | some dn =>
      some (fromBTU (outputUnit F)
        (f32toU32 (f32round (f32mul
          (f32ofNat (intoBTU (outputUnit F) dn * amount % 2 ^ 32))
          (f32div (f32ofNat (min e 100)) (f32lit 100))))))) = none
  rw [h]

theorem pewe_some (F : FuelTy) (amount e dn : ℕ) (h : energy_density F = some dn) :
    provide_energy_with_efficiency F amount e
      = some (fromBTU (outputUnit F)
          (f32toU32 (f32round (f32mul
            (f32ofNat (intoBTU (outputUnit F) dn * amount % 2 ^ 32))
            (f32div (f32ofNat (min e 100)) (f32lit 100)))))) := by
  show (match energy_density F with
    | none => none
    | some dn =>
      some (fromBTU (outputUnit F)
        (f32toU32 (f32round (f32mul
          (f32ofNat (intoBTU (outputUnit F) dn * amount % 2 ^ 32))
          (f32div (f32ofNat (min e 100)) (f32lit 100))))))) = _
  rw [h]

theorem spec_ewe_some (F : FuelTy) (amount e dn : ℕ) (h : energy_density F = some dn) :
    specEnergyWithEfficiency F amount e
      = some (fromBTU (outputUnit F)
          (rnat (intoBTU (outputUnit F) dn * amount * min e 100) 100)) := by
  unfold specEnergyWithEfficiency densityBTU
  rw [h]
  rfl

/-! ## The `InternalCombustion` state machine -/

theorem icRun_count (D E : ℕ) : ∀ n, (icRun D E n).count = n % 2 ^ 32 := by
  intro n
  induction n with
  | zero => rfl
  | succ n ih =>
    have h : (icRun D E (n + 1)).count = ((icRun D E n).count + 1) % 2 ^ 32 := rfl
    rw [h, ih]
    omega

theorem icRun_eff_succ (D E n : ℕ) :
    (icRun D E (n + 1)).eff
      = (if n % 2 ^ 32 % D = 0 ∧ 1 < (icRun D E n).eff ∧ D ≤ n % 2 ^ 32
         then (icRun D E n).eff - 1 else (icRun D E n).eff) := by
  have h : (icRun D E (n + 1)).eff
      = (if (icRun D E n).count % D = 0 ∧ 1 < (icRun D E n).eff ∧ D ≤ (icRun D E n).count
         then (icRun D E n).eff - 1 else (icRun D E n).eff) := rfl
  rw [h, icRun_count]

theorem icRun_eff_mono (D E n : ℕ) : (icRun D E (n + 1)).eff ≤ (icRun D E n).eff := by
  rw [icRun_eff_succ]
  split <;> omega

theorem icRun_eff_ge_one (D E : ℕ) (hE : 1 ≤ E) : ∀ n, 1 ≤ (icRun D E n).eff := by
  intro n
  induction n with
  | zero =>
    show 1 ≤ min E 100
    omega
  | succ n ih =>
    rw [icRun_eff_succ]
    split <;> omega

theorem decay_gap (D m1 m2 : ℕ) (hD : 0 < D) (hlt : m1 < m2) (hclose : m2 < m1 + D)
    (h1 : m1 % 2 ^ 32 % D = 0 ∧ D ≤ m1 % 2 ^ 32) :
    ¬(m2 % 2 ^ 32 % D = 0 ∧ D ≤ m2 % 2 ^ 32) := by
  rintro ⟨h2a, h2b⟩
  obtain ⟨h1a, h1b⟩ := h1
  have ha := Nat.dvd_of_mod_eq_zero h1a
  have hb := Nat.dvd_of_mod_eq_zero h2a
  have halt : m1 % 2 ^ 32 < 2 ^ 32 := Nat.mod_lt _ (by norm_num)
  have hblt : m2 % 2 ^ 32 < 2 ^ 32 := Nat.mod_lt _ (by norm_num)
  have hrel : m2 % 2 ^ 32 = (m1 % 2 ^ 32 + (m2 - m1)) % 2 ^ 32 := by omega
  rcases le_or_lt (2 ^ 32) (m1 % 2 ^ 32 + (m2 - m1)) with hwrap | hnow
  · omega
  · have hb2 : m2 % 2 ^ 32 = m1 % 2 ^ 32 + (m2 - m1) := by omega
    have hdvd : D ∣ (m2 - m1) := by
      have hsub := Nat.dvd_sub' hb ha
      rwa [hb2, Nat.add_sub_cancel_left] at hsub
    have hle := Nat.le_of_dvd (by omega) hdvd
    omega

theorem icRun_eff_window (D E : ℕ) (hD : 0 < D) :
    ∀ j, ∀ n, j ≤ D →
      ((icRun D E n).eff ≤ (icRun D E (n + j)).eff + 1 ∧
       ((∀ m, n ≤ m → m < n + j → ¬(m % 2 ^ 32 % D = 0 ∧ D ≤ m % 2 ^ 32)) →
         (icRun D E n).eff = (icRun D E (n + j)).eff)) := by
  intro j
  induction j with
  | zero =>
    intro n _
    exact ⟨Nat.le_succ _, fun _ => rfl⟩
  | succ j ih =>
    intro n hj
    have hidx : n + (j + 1) = (n + 1) + j := by omega
    rw [hidx]
    by_cases hdc : n % 2 ^ 32 % D = 0 ∧ D ≤ n % 2 ^ 32
    · by_cases heff : 1 < (icRun D E n).eff
      · have heq : (icRun D E (n + 1)).eff = (icRun D E n).eff - 1 := by
          rw [icRun_eff_succ, if_pos ⟨hdc.1, heff, hdc.2⟩]
        have hfree : ∀ m, n + 1 ≤ m → m < (n + 1) + j →
            ¬(m % 2 ^ 32 % D = 0 ∧ D ≤ m % 2 ^ 32) := by
          intro m hm1 hm2
          exact decay_gap D n m hD (by omega) (by omega) hdc
        have heq2 := (ih (n + 1) (by omega)).2 hfree
        constructor
        · omega
        · intro hfreeall
          exact absurd hdc (hfreeall n le_rfl (by omega))
      · have heq : (icRun D E (n + 1)).eff = (icRun D E n).eff := by
          rw [icRun_eff_succ, if_neg]
          rintro ⟨_, hx, _⟩
          exact heff hx
        have hih := (ih (n + 1) (by omega)).1
        constructor
        · omega
        · intro hfreeall
          exact absurd hdc (hfreeall n le_rfl (by omega))
    · have heq : (icRun D E (n + 1)).eff = (icRun D E n).eff := by
        rw [icRun_eff_succ, if_neg]
        rintro ⟨hx, _, hy⟩
        exact hdc ⟨hx, hy⟩
      obtain ⟨hih1, hih2⟩ := ih (n + 1) (by omega)
      constructor
      · omega
      · intro hfreeall
        have hfree' : ∀ m, n + 1 ≤ m → m < (n + 1) + j →
            ¬(m % 2 ^ 32 % D = 0 ∧ D ≤ m % 2 ^ 32) := by
          intro m hm1 hm2
          exact hfreeall m (by omega) (by omega)
        rw [heq.symm, hih2 hfree']

/-! ## Claim theorems -/

/-- C1 (amended): the provided method `provide_energy_with_efficiency` clamps the
efficiency input at 100, forms the total common-unit energy `density * amount`,
scales it by `e / 100`, and converts the result back to the fuel's native unit;
the scaled total agrees with exact round-to-nearest arithmetic whenever the total
is at most 4000000 and the exact scaled value `total * e' / 100` is an integer.
(The original unconditional claim fails: the `f32` pipeline rounds large totals,
see `provide_energy_round_to_nearest_ce`.) -/
theorem provide_energy_with_efficiency_spec (F : FuelTy) (amount e dn : ℕ)
    (hdn : energy_density F = some dn)
    (htot : intoBTU (outputUnit F) dn * amount ≤ 4000000)
    (hdvd : 100 ∣ intoBTU (outputUnit F) dn * amount * min e 100) :
    provide_energy_with_efficiency F amount e = specEnergyWithEfficiency F amount e := by
  have hmod : intoBTU (outputUnit F) dn * amount % 2 ^ 32
      = intoBTU (outputUnit F) dn * amount := Nat.mod_eq_of_lt (by omega)
  rw [pewe_some F amount e dn hdn, spec_ewe_some F amount e dn hdn, hmod,
    scaled_total_exact _ _ htot (Nat.min_le_right e 100) hdvd]

/-- Counterexample to C1 as stated: a blended fuel of common-unit density 150 with
amount 223697 has total 33554550, which is not a binary32 value; the code returns
the rounded total 33554552 instead of the exact round-to-nearest result 33554550. -/
theorem provide_energy_round_to_nearest_ce :
    provide_energy_with_efficiency (FuelTy.mixed FuelTy.diesel FuelTy.lithiumBattery) 223697 100
      ≠ specEnergyWithEfficiency (FuelTy.mixed FuelTy.diesel FuelTy.lithiumBattery) 223697 100 := by
  decide

/-- Witness for C1's amended theorem at Diesel, amount 10, efficiency 35. -/
theorem provide_energy_with_efficiency_spec_witness :
    (energy_density FuelTy.diesel = some 105500 ∧
     intoBTU (outputUnit FuelTy.diesel) 105500 * 10 ≤ 4000000 ∧
     100 ∣ intoBTU (outputUnit FuelTy.diesel) 105500 * 10 * min 35 100) ∧
    provide_energy_with_efficiency FuelTy.diesel 10 35
      = specEnergyWithEfficiency FuelTy.diesel 10 35 :=
  ⟨⟨by decide, by decide, by decide⟩,
    provide_energy_with_efficiency_spec FuelTy.diesel 10 35 105500
      (by decide) (by decide) (by decide)⟩

/-- C2: an `InternalCombustion<3>` engine built with efficiency 120 is clamped to
100 at construction, applies 100 on its first call (no decay), produces common-unit
outputs 1000, 1000, 1000, 990 on its first four calls when fed Diesel amount 10
each time, decrements its stored efficiency exactly when the pre-call count is a
positive multiple of 3 and the stored efficiency exceeds 1, and increments the
call counter on every call. -/
theorem internal_combustion_scenario :
    (icOutput 3 120 10 0).map (intoBTU EUnit.joule) = some 1000 ∧
    (icOutput 3 120 10 1).map (intoBTU EUnit.joule) = some 1000 ∧
    (icOutput 3 120 10 2).map (intoBTU EUnit.joule) = some 1000 ∧
    (icOutput 3 120 10 3).map (intoBTU EUnit.joule) = some 990 ∧
    (icNew 120).eff = 100 ∧
    icApplied 3 120 0 = 100 ∧
    (∀ s : ICState, (icStep 3 s).1
        = (if s.count % 3 = 0 ∧ 0 < s.count ∧ 1 < s.eff then s.eff - 1 else s.eff) ∧
      (icStep 3 s).2.count = (s.count + 1) % 2 ^ 32) := by
  refine ⟨by decide, by decide, by decide, by decide, by decide, by decide, ?_⟩
  intro s
  constructor
  · show (if s.count % 3 = 0 ∧ 1 < s.eff ∧ 3 ≤ s.count then s.eff - 1 else s.eff) = _
    by_cases h1 : s.count % 3 = 0 ∧ 1 < s.eff ∧ 3 ≤ s.count
    · rw [if_pos h1, if_pos ⟨h1.1, by omega, h1.2.1⟩]
    · by_cases h2 : s.count % 3 = 0 ∧ 0 < s.count ∧ 1 < s.eff
      · exact absurd ⟨h2.1, h2.2.2, by omega⟩ h1
      · rw [if_neg h1, if_neg h2]
  · rfl

/-- C3: all four unit conversions are total over the `u32` domain: on any input
below `2 ^ 32` each returns a value below `2 ^ 32` (the multiplicative directions
wrap modulo `2 ^ 32` under release-mode semantics rather than failing). -/
theorem conversions_total (v : ℕ) (hv : v < 2 ^ 32) :
    btuOfJoule v < 2 ^ 32 ∧ jouleOfBtu v < 2 ^ 32 ∧
    btuOfCalorie v < 2 ^ 32 ∧ calorieOfBtu v < 2 ^ 32 := by
  unfold btuOfJoule jouleOfBtu btuOfCalorie calorieOfBtu
  omega

/-- Witness for C3 at the largest `u32` value. -/
theorem conversions_total_witness :
    (4294967295 : ℕ) < 2 ^ 32 ∧
    (btuOfJoule 4294967295 < 2 ^ 32 ∧ jouleOfBtu 4294967295 < 2 ^ 32 ∧
     btuOfCalorie 4294967295 < 2 ^ 32 ∧ calorieOfBtu 4294967295 < 2 ^ 32) :=
  ⟨by decide, conversions_total 4294967295 (by decide)⟩

/-- C4 (amended): the common-to-natural-to-common round trip is the identity
whenever the intermediate product does not overflow `u32` (for all `b` with
`b * 1055 < 2 ^ 32`, respectively `b * 251 < 2 ^ 32`); the natural-to-common-to-
natural round trip rounds down to the nearest multiple of the ratio and is the
identity exactly on multiples of the ratio.  (The original unconditional claim
fails at `b = 4071558`, where `b * 1055` wraps: see `unit_conversion_round_trip_ce`.) -/
theorem unit_conversion_round_trips (b j : ℕ)
    (hb1 : b * 1055 < 2 ^ 32) (hb2 : b * 251 < 2 ^ 32) (hj : j < 2 ^ 32) :
    btuOfJoule (jouleOfBtu b) = b ∧
    btuOfCalorie (calorieOfBtu b) = b ∧
    jouleOfBtu (btuOfJoule j) = j / 1055 * 1055 ∧
    calorieOfBtu (btuOfCalorie j) = j / 251 * 251 ∧
    (jouleOfBtu (btuOfJoule j) = j ↔ 1055 ∣ j) ∧
    (calorieOfBtu (btuOfCalorie j) = j ↔ 251 ∣ j) := by
  unfold btuOfJoule jouleOfBtu btuOfCalorie calorieOfBtu
  refine ⟨?_, ?_, ?_, ?_, ?_, ?_⟩ <;> omega

/-- Counterexample to C4 as stated: at `b = 4071558` the product `b * 1055`
wraps modulo `2 ^ 32`, so the BTU-to-Joule-to-BTU round trip is not the identity. -/
theorem unit_conversion_round_trip_ce :
    btuOfJoule (jouleOfBtu 4071558) ≠ 4071558 := by
  decide

/-- Witness for C4's amended theorem at `b = 100`, `j = 2110`. -/
theorem unit_conversion_round_trips_witness :
    (100 * 1055 < 2 ^ 32 ∧ 100 * 251 < 2 ^ 32 ∧ 2110 < 2 ^ 32) ∧
    (btuOfJoule (jouleOfBtu 100) = 100 ∧
     btuOfCalorie (calorieOfBtu 100) = 100 ∧
     jouleOfBtu (btuOfJoule 2110) = 2110 / 1055 * 1055 ∧
     calorieOfBtu (btuOfCalorie 2110) = 2110 / 251 * 251 ∧
     (jouleOfBtu (btuOfJoule 2110) = 2110 ↔ 1055 ∣ 2110) ∧
     (calorieOfBtu (btuOfCalorie 2110) = 2110 ↔ 251 ∣ 2110)) :=
  ⟨⟨by decide, by decide, by decide⟩,
    unit_conversion_round_trips 100 2110 (by decide) (by decide) (by decide)⟩

/-- C5: the provided method clamps the efficiency, so any two efficiency inputs
that are both at least 100 produce identical results for every fuel and amount,
and an over-range efficiency is never an error. -/
theorem efficiency_clamp_equiv (F : FuelTy) (amount e1 e2 : ℕ)
    (h1 : 100 ≤ e1) (h2 : 100 ≤ e2) :
    provide_energy_with_efficiency F amount e1 = provide_energy_with_efficiency F amount e2 := by
  rcases h : energy_density F with _ | dn
  · rw [pewe_none F amount e1 h, pewe_none F amount e2 h]
  · rw [pewe_some F amount e1 dn h, pewe_some F amount e2 dn h,
      Nat.min_eq_right h1, Nat.min_eq_right h2]

/-- Witness for C5: efficiency 150 behaves like efficiency 100 on a Diesel container. -/
theorem efficiency_clamp_equiv_witness :
    ((100 : ℕ) ≤ 150 ∧ (100 : ℕ) ≤ 100) ∧
    provide_energy_with_efficiency FuelTy.diesel 1 150
      = provide_energy_with_efficiency FuelTy.diesel 1 100 :=
  ⟨⟨by decide, by decide⟩,
    efficiency_clamp_equiv FuelTy.diesel 1 150 100 (by decide) (by decide)⟩

/-- C6: for every positive decay interval `D` and initial efficiency `E`, the
efficiency an `InternalCombustion<D>` engine applies is non-increasing from call
to call, decreases by at most 1 over any window of `D` consecutive calls, and
(when the engine starts with efficiency at least 1) never drops below 1. -/
theorem ic_efficiency_invariants (D E n : ℕ) (hD : 0 < D) :
    icApplied D E (n + 1) ≤ icApplied D E n ∧
    icApplied D E n ≤ icApplied D E (n + D) + 1 ∧
    (1 ≤ E → 1 ≤ icApplied D E n) := by
  have h1 := icRun_eff_mono D E (n + 1)
  have h2 := (icRun_eff_window D E hD D (n + 1) le_rfl).1
  have h3 : n + 1 + D = n + D + 1 := by omega
  rw [h3] at h2
  exact ⟨h1, h2, fun hE => icRun_eff_ge_one D E hE (n + 1)⟩

/-- Witness for C6 at `D = 3`, `E = 100`, `n = 0`. -/
theorem ic_efficiency_invariants_witness :
    0 < 3 ∧
    (icApplied 3 100 (0 + 1) ≤ icApplied 3 100 0 ∧
     icApplied 3 100 0 ≤ icApplied 3 100 (0 + 3) + 1 ∧
     (1 ≤ 100 → 1 ≤ icApplied 3 100 0)) :=
  ⟨by decide, ic_efficiency_invariants 3 100 0 (by decide)⟩

/-- C7 (amended): whenever `CustomMixed<C, F1, F2>::energy_density()` returns a
value `v` and the specification's round-to-nearest formula yields `w`, the code's
value is `w` or `w - 1`: the `f32` pipeline truncates the blended sum instead of
rounding it.  (The exact round-to-nearest claim fails: see
`customMixed_density_round_ce`.) -/
theorem customMixed_density_near_spec (C : ℕ) (F1 F2 : FuelTy) (v w : ℕ)
    (hv : energy_density (FuelTy.customMixed C F1 F2) = some v)
    (hw : specCustomMixedDensity C F1 F2 = some w) :
    v ≤ w ∧ w ≤ v + 1 := by
  by_cases hC : C ≤ 100
  · rcases h1 : energy_density F1 with _ | v1
    · rw [energy_density_custom_none_l C F1 F2 hC h1] at hv
      exact Option.noConfusion hv
    rcases h2 : energy_density F2 with _ | v2
    · rw [energy_density_custom_none_r C F1 F2 v1 hC h1 h2] at hv
      exact Option.noConfusion hv
    rw [energy_density_custom_eq C F1 F2 v1 v2 hC h1 h2, Option.some.injEq] at hv
    rw [show specCustomMixedDensity C F1 F2
        = some (rnat (intoBTU (outputUnit F1) v1 * C + intoBTU (outputUnit F2) v2 * (100 - C)) 100)
      by unfold specCustomMixedDensity densityBTU
         rw [if_pos hC, h1, h2]
         rfl, Option.some.injEq] at hw
    have hb1 := densityBTU_le F1 v1 h1
    have hb2 := densityBTU_le F2 v2 h2
    obtain ⟨hs0, hs1, hs2⟩ := f32blendDensity_spec C _ _ hC hb1 hb2
    obtain ⟨hr1, hr2⟩ := rnat_bounds
      (intoBTU (outputUnit F1) v1 * C + intoBTU (outputUnit F2) v2 * (100 - C)) 100 (by norm_num)
    have hcast : (((100:ℕ)) : ℚ) = (100 : ℚ) := by norm_num
    rw [hcast] at hr1 hr2
    rw [hv] at hs1 hs2
    rw [hw] at hr1 hr2
    have hq1 : (v : ℚ) < (w : ℚ) + 1 := by linarith
    have hq2 : (w : ℚ) < (v : ℚ) + 2 := by linarith
    have hn1 : v < w + 1 := by exact_mod_cast hq1
    have hn2 : w < v + 2 := by exact_mod_cast hq2
    omega
  · rw [show specCustomMixedDensity C F1 F2 = none
      by unfold specCustomMixedDensity
         rw [if_neg hC]] at hw
    exact Option.noConfusion hw

/-- Counterexample to C7 as stated: blending Diesel with itself at weight 33
yields 99 in the code, while round-to-nearest of `100 * 33/100 + 100 * 67/100`
is 100. -/
theorem customMixed_density_round_ce :
    energy_density (FuelTy.customMixed 33 FuelTy.diesel FuelTy.diesel) = some 99 ∧
    specCustomMixedDensity 33 FuelTy.diesel FuelTy.diesel = some 100 := by
  constructor
  · decide
  · decide

/-- Witness for C7's amended theorem at weight 50 on two Diesel constituents. -/
theorem customMixed_density_near_spec_witness :
    (energy_density (FuelTy.customMixed 50 FuelTy.diesel FuelTy.diesel) = some 100 ∧
     specCustomMixedDensity 50 FuelTy.diesel FuelTy.diesel = some 100) ∧
    (100 ≤ 100 ∧ (100 : ℕ) ≤ 100 + 1) :=
  ⟨⟨by decide, by decide⟩,
    customMixed_density_near_spec 50 FuelTy.diesel FuelTy.diesel 100 100 (by decide) (by decide)⟩

/-- C8: the weighted blend at `C = 50` computes exactly the even blend's density
for every pair of fuel types, and in particular two fuels of common-unit
densities 100 and 200 blend to 150. -/
theorem customMixed50_eq_mixed_density :
    (∀ F1 F2 : FuelTy,
      energy_density (FuelTy.customMixed 50 F1 F2) = energy_density (FuelTy.mixed F1 F2)) ∧
    energy_density (FuelTy.mixed FuelTy.diesel FuelTy.lithiumBattery) = some 150 := by
  constructor
  · intro F1 F2
    rcases h1 : energy_density F1 with _ | v1
    · rw [energy_density_mixed_none_l F1 F2 h1,
        energy_density_custom_none_l 50 F1 F2 (by norm_num) h1]
    rcases h2 : energy_density F2 with _ | v2
    · rw [energy_density_mixed_none_r F1 F2 v1 h1 h2,
        energy_density_custom_none_r 50 F1 F2 v1 (by norm_num) h1 h2]
    have hb1 := densityBTU_le F1 v1 h1
    have hb2 := densityBTU_le F2 v2 h2
    rw [energy_density_mixed_eq F1 F2 v1 v2 h1 h2,
      energy_density_custom_eq 50 F1 F2 v1 v2 (by norm_num) h1 h2,
      f32blendDensity_half _ _ hb1 hb2, Option.some.injEq]
    omega
  · decide

/-- C9 (amended): `CustomMixed<C, F1, F2>::energy_density()` aborts exactly when
`C > 100` or one of its constituents aborts; in particular for `C` in range and
non-aborting constituents it returns normally, and an out-of-range `C` is an
abort, never a recoverable error.  (The original "if and only if C > 100" fails
when a constituent such as a nested out-of-range blend aborts first: see
`customMixed_abort_ce`.) -/
theorem customMixed_abort_iff (C : ℕ) (F1 F2 : FuelTy) :
    energy_density (FuelTy.customMixed C F1 F2) = none ↔
      100 < C ∨ energy_density F1 = none ∨ energy_density F2 = none := by
  by_cases hC : C ≤ 100
  · rcases h1 : energy_density F1 with _ | v1
    · rw [energy_density_custom_none_l C F1 F2 hC h1]
      simp
    rcases h2 : energy_density F2 with _ | v2
    · rw [energy_density_custom_none_r C F1 F2 v1 hC h1 h2]
      simp
    · rw [energy_density_custom_eq C F1 F2 v1 v2 hC h1 h2]
      constructor
      · intro h
        exact Option.noConfusion h
      · rintro (h | h | h)
        · omega
        · exact Option.noConfusion h
        · exact Option.noConfusion h
  · rw [energy_density_custom_big C F1 F2 hC]
    constructor
    · intro _
      exact Or.inl (by omega)
    · intro _
      rfl

/-- Counterexample to C9 as stated: a blend with in-range weight 50 whose first
constituent is an out-of-range blend aborts even though its own `C ≤ 100`. -/
theorem customMixed_abort_ce :
    energy_density (FuelTy.customMixed 50
      (FuelTy.customMixed 101 FuelTy.diesel FuelTy.diesel) FuelTy.diesel) = none ∧
    (50 : ℕ) ≤ 100 := by
  constructor
  · decide
  · decide

/-- C10: each base fuel's native-unit density converts to the common unit with no
truncation loss, recovering exactly the defining BTU constants 100, 200 and 1000,
because each density is the image of a BTU constant under the exact
multiplicative conversion. -/
theorem base_density_common_exact :
    densityBTU FuelTy.diesel = some 100 ∧
    densityBTU FuelTy.lithiumBattery = some 200 ∧
    densityBTU FuelTy.uranium = some 1000 ∧
    energy_density FuelTy.diesel = some (100 * 1055) ∧
    energy_density FuelTy.lithiumBattery = some (200 * 251) ∧
    energy_density FuelTy.uranium = some (1000 * 1055) := by
  decide
